import Mathlib

/-!
Verification development for the goverseer process-supervision library.

The definitions below are a shallow embedding of the Go source:
  - types.go, child.go          : ChildSpec, child records
  - supervisor.go               : the control loop's command handlers,
                                  exit processing and the intensity check
  - the strategies file         : Strategy, RestartType, executeStrategy,
                                  restartOne, restartAll, restartRestForOne
  - backoff.go                  : JitterBackoff

Modelling conventions:
  - `time.Time` and `time.Duration` are modelled as `Int` (nanoseconds).
  - Go heap pointers to child records are modelled by a numeric `id`
    field; a fresh id is drawn from the supervisor's `nextId` counter at
    every allocation, so pointer equality is id equality.
  - The Go `map[string]*child` is modelled as an association list with
    unique keys; the map is never iterated by the source, only looked
    up, inserted and deleted, so iteration order is irrelevant.
  - Child bodies, goroutines, channels and the backoff sleep are not
    modelled: `startChild` in the source always returns nil and only
    emits a `ChildStarted` event, which is what the model records.
    Events emitted by an operation are returned as a list, and the ids
    of records whose `stop()` was called are returned as a list, in
    call order.
  - `float64` values appearing in JitterBackoff (the jitter factor and
    the `rand.Float64()` sample) are modelled as exact rationals; the
    `time.Duration(...)` conversion of a float truncates toward zero,
    modelled by `ratTrunc`.
-/

namespace Goverseer

/-- `type RestartType int` in the source: an integer-valued type, so
callers can construct values outside the three declared constants. -/
abbrev RestartType := Int

/-- `Permanent RestartType = iota` (= 0). -/
def Permanent : RestartType := 0

/-- `Transient` (= 1). -/
def Transient : RestartType := 1

/-- `Temporary` (= 2). -/
def Temporary : RestartType := 2

/-- `type Strategy int`. -/
abbrev Strategy := Int

/-- `OneForOne Strategy = iota` (= 0). -/
def OneForOne : Strategy := 0

/-- `OneForAll` (= 1). -/
def OneForAll : Strategy := 1

/-- `RestForOne` (= 2). -/
def RestForOne : Strategy := 2

/-- `SimpleOneForOne` (= 3). -/
def SimpleOneForOne : Strategy := 3

/-- `ChildSpec` from types.go: the user-facing descriptor.  The `Start`
callable is an external collaborator and is not modelled. -/
structure ChildSpec where
  name : String
  restart : RestartType
  deriving DecidableEq

/-- `child` from child.go.  `id` models the identity of the heap
allocation (`*child` pointer); `restartCount` and `stopped` are the
record's mutable fields.  The context/cancel plumbing is not modelled. -/
structure Child where
  id : Nat
  spec : ChildSpec
  restartCount : Int
  stopped : Bool
  deriving DecidableEq

/-- `newChild` from child.go: a fresh record with zero restartCount. -/
def newChild (i : Nat) (spec : ChildSpec) : Child :=
  { id := i, spec := spec, restartCount := 0, stopped := false }

/-- `childExit` from child.go.  `errPresent` models `err != nil`. -/
structure ChildExit where
  child : Child
  errPresent : Bool
  panicked : Bool
  deriving DecidableEq

/-- `EventType` from the events file. -/
inductive EventType where
  | ChildStarted
  | ChildExited
  | ChildRestarted
  | SupervisorStopping
  | SupervisorFailedIntensity
  | ChildPanicked
  deriving DecidableEq

/-- An emitted `Event`, reduced to the fields the claims talk about. -/
structure Event where
  childName : String
  type : EventType
  deriving DecidableEq

/-- The sentinel errors of errors.go, plus the `fmt.Errorf` for an
unknown strategy in `executeStrategy`. -/
inductive GoError where
  | supervisorStopped
  | intensityExceeded
  | childNotFound
  | childAlreadyExists
  | unknownStrategy
  deriving DecidableEq

/-- The supervisor's state owned by the control loop.  `nextId` is the
allocator for child-record identities (models the heap). -/
structure Supervisor where
  strategy : Strategy
  maxRestarts : Int
  restartWindow : Int
  children : List Child
  childMap : List (String × Child)
  restartHistory : List Int
  stopped : Bool
  finalErr : Option GoError
  nextId : Nat
  deriving DecidableEq

/-- Result of one state-mutating operation: the new state, the ids of
records whose `stop()` was called (in call order), the events emitted
(in emission order), and the returned error. -/
structure StepResult where
  sup : Supervisor
  stops : List Nat
  events : List Event
  err : Option GoError
  deriving DecidableEq

/-- Go map lookup `m[k]` on the association-list model. -/
def mapLookup (m : List (String × Child)) (k : String) : Option Child :=
  match m with
  | [] => none
  | (k2, v) :: rest => if k2 = k then some v else mapLookup rest k

/-- Go map assignment `m[k] = v`: replace in place, or append. -/
def mapInsert (m : List (String × Child)) (k : String) (v : Child) :
    List (String × Child) :=
  match m with
  | [] => [(k, v)]
  | (k2, v2) :: rest =>
      if k2 = k then (k, v) :: rest else (k2, v2) :: mapInsert rest k v

/-- Go `delete(m, k)`. -/
def mapDelete (m : List (String × Child)) (k : String) :
    List (String × Child) :=
  m.filter (fun p => p.1 ≠ k)

/-- The slice scan in `restartOne`/`doRestartChild`: replace the first
child whose `spec.Name` matches, leave the slice alone otherwise. -/
def replaceFirstByName (l : List Child) (name : String) (nc : Child) :
    List Child :=
  match l with
  | [] => []
  | ch :: rest =>
      if ch.spec.name = name then nc :: rest
      else ch :: replaceFirstByName rest name nc

/-- The slice scan in `restartRestForOne` locating `failedIndex`
(`none` models `-1`). -/
def findIdxByName (l : List Child) (name : String) : Option Nat :=
  match l with
  | [] => none
  | ch :: rest =>
      if ch.spec.name = name then some 0
      else (findIdxByName rest name).map (· + 1)

/-- The slice removal in `doRemoveChild`: drop the first element that
is pointer-equal (`c == ch`, i.e. same id) to the looked-up record. -/
def eraseFirstById (l : List Child) (i : Nat) : List Child :=
  match l with
  | [] => []
  | ch :: rest => if ch.id = i then rest else ch :: eraseFirstById rest i

/-- Effect of `ch.stop()` on one aliased record value. -/
def stopId (i : Nat) (c : Child) : Child :=
  if c.id = i then { c with stopped := true } else c

/-- `ch.stop()` as seen by the supervisor state: the record object is
shared between the slice and the map, so the flag is set on every alias
of the same id. -/
def supStop (s : Supervisor) (i : Nat) : Supervisor :=
  { s with
    children := s.children.map (stopId i),
    childMap := s.childMap.map (fun p => (p.1, stopId i p.2)) }

/-- `doAddChild` from supervisor.go. -/
def doAddChild (spec : ChildSpec) (s : Supervisor) : StepResult :=
  if s.stopped then ⟨s, [], [], some .supervisorStopped⟩
  else if (mapLookup s.childMap spec.name).isSome then
    ⟨s, [], [], some .childAlreadyExists⟩
  else
    let ch := newChild s.nextId spec
    ⟨{ s with
        nextId := s.nextId + 1,
        children := s.children ++ [ch],
        childMap := mapInsert s.childMap spec.name ch },
      [], [⟨spec.name, .ChildStarted⟩], none⟩

/-- `doRemoveChild` from supervisor.go.  Note: it does not consult the
`stopped` flag. -/
def doRemoveChild (name : String) (s : Supervisor) : StepResult :=
  match mapLookup s.childMap name with
  | none => ⟨s, [], [], some .childNotFound⟩
  | some ch =>
    let s1 := supStop s ch.id
    ⟨{ s1 with
        children := eraseFirstById s1.children ch.id,
        childMap := mapDelete s1.childMap name },
      [ch.id], [], none⟩

/-- `doRestartChild` from supervisor.go.  The replacement is built by
`newChild(ch.spec, ...)`, so its restartCount is the zero value 0; the
old count is not copied.  No `stopped` check, no `ChildRestarted`
event; `startChild` emits `ChildStarted`. -/
def doRestartChild (name : String) (s : Supervisor) : StepResult :=
  match mapLookup s.childMap name with
  | none => ⟨s, [], [], some .childNotFound⟩
  | some ch =>
    let s1 := supStop s ch.id
    let nc := newChild s1.nextId ch.spec
    ⟨{ s1 with
        nextId := s1.nextId + 1,
        childMap := mapInsert s1.childMap name nc,
        children := replaceFirstByName s1.children name nc },
      [ch.id], [⟨name, .ChildStarted⟩], none⟩

/-- `Start` from supervisor.go: fails on a stopped supervisor,
otherwise starts every child in order (`startChild` never fails). -/
def startSup (s : Supervisor) : List Event × Option GoError :=
  if s.stopped then ([], some .supervisorStopped)
  else (s.children.map (fun ch => (⟨ch.spec.name, .ChildStarted⟩ : Event)), none)

/-- `shouldRestart` from supervisor.go: a switch on the restart type
with explicit `Temporary` and `default` arms, both returning false. -/
def shouldRestart (exit : ChildExit) : Bool :=
  if exit.child.spec.restart = Permanent then true
  else if exit.child.spec.restart = Transient then
    exit.errPresent || exit.panicked
  else if exit.child.spec.restart = Temporary then false
  else false

/-- The loop in `checkRestartIntensity` that finds the first retained
index: scan for the first timestamp strictly after the cutoff; if none
qualifies, `start` stays 0. -/
def firstAfterIdx (cutoff : Int) : List Int → Option Nat
  | [] => none
  | t :: rest =>
      if cutoff < t then some 0 else (firstAfterIdx cutoff rest).map (· + 1)

/-- `checkRestartIntensity` from supervisor.go: append now, slice off
everything before the first entry after `now - restartWindow`, and
compare the retained length with `maxRestarts`. -/
def checkRestartIntensity (now : Int) (s : Supervisor) : Supervisor × Bool :=
  let hist := s.restartHistory ++ [now]
  let cutoff := now - s.restartWindow
  let start := (firstAfterIdx cutoff hist).getD 0
  let hist2 := hist.drop start
  ({ s with restartHistory := hist2 },
   decide ((hist2.length : Int) ≤ s.maxRestarts))

/-- `restartOne` from the strategies file (OneForOne and
SimpleOneForOne): build the replacement with the old count plus one,
install it in the map unconditionally, replace the first name match in
the slice if any, emit `ChildRestarted` then `ChildStarted`. -/
def restartOne (exit : ChildExit) (s : Supervisor) : StepResult :=
  let nc : Child :=
    { id := s.nextId, spec := exit.child.spec,
      restartCount := exit.child.restartCount + 1, stopped := false }
  ⟨{ s with
      nextId := s.nextId + 1,
      childMap := mapInsert s.childMap exit.child.spec.name nc,
      children := replaceFirstByName s.children exit.child.spec.name nc },
    [],
    [⟨exit.child.spec.name, .ChildRestarted⟩,
     ⟨exit.child.spec.name, .ChildStarted⟩],
    none⟩

/-- The replacement loop shared by `restartAll` and
`restartRestForOne`: walk the (already stopped) records in order,
allocate a replacement with the same spec and count plus one, and
install it in the map as we go.  Returns the next fresh id, the
replacement records in order, and the updated map. -/
def buildAll (nid : Nat) :
    List Child → List (String × Child) →
    Nat × List Child × List (String × Child)
  | [], m => (nid, [], m)
  | ch :: rest, m =>
    let nc : Child :=
      { id := nid, spec := ch.spec,
        restartCount := ch.restartCount + 1, stopped := false }
    let r := buildAll (nid + 1) rest (mapInsert m ch.spec.name nc)
    (r.1, nc :: r.2.1, r.2.2)

/-- The per-replacement event trace: the source emits `ChildRestarted`
then (via `startChild`) `ChildStarted` for each replacement in order. -/
def restartEvents (l : List Child) : List Event :=
  l.flatMap (fun c =>
    [⟨c.spec.name, .ChildRestarted⟩, ⟨c.spec.name, .ChildStarted⟩])

/-- `restartAll` from the strategies file (OneForAll): stop every
child, rebuild every slot in order, then emit and start in order. -/
def restartAll (s : Supervisor) : StepResult :=
  let s0 := s.children.foldl (fun acc ch => supStop acc ch.id) s
  let b := buildAll s0.nextId s0.children s0.childMap
  ⟨{ s0 with nextId := b.1, children := b.2.1, childMap := b.2.2 },
    s.children.map (fun c => c.id),
    restartEvents b.2.1,
    none⟩

/-- `restartRestForOne` from the strategies file: locate the failed
child's index; if absent (`failedIndex == -1`) return nil with no
changes; otherwise stop the suffix in forward order, then replace and
start it in forward order, preserving positions. -/
def restartRestForOne (exit : ChildExit) (s : Supervisor) : StepResult :=
  match findIdxByName s.children exit.child.spec.name with
  | none => ⟨s, [], [], none⟩
  | some i =>
    let s0 := (s.children.drop i).foldl (fun acc ch => supStop acc ch.id) s
    let b := buildAll s0.nextId (s0.children.drop i) s0.childMap
    ⟨{ s0 with
        nextId := b.1,
        children := s0.children.take i ++ b.2.1,
        childMap := b.2.2 },
      (s.children.drop i).map (fun c => c.id),
      restartEvents b.2.1,
      none⟩

/-- `executeStrategy` from the strategies file. -/
def executeStrategy (exit : ChildExit) (s : Supervisor) : StepResult :=
  if s.strategy = OneForOne then restartOne exit s
  else if s.strategy = OneForAll then restartAll s
  else if s.strategy = RestForOne then restartRestForOne exit s
  else if s.strategy = SimpleOneForOne then restartOne exit s
  else ⟨s, [], [], some .unknownStrategy⟩

/-- The type tag of the exit event emitted first by `handleChildExit`. -/
def exitEventType (exit : ChildExit) : EventType :=
  if exit.panicked then .ChildPanicked else .ChildExited

/-- `handleChildExit` from supervisor.go: emit the exit event, decide
on restart by type, run the intensity check, then (after the backoff
sleep, which has no state effect) execute the strategy. -/
def handleChildExit (now : Int) (exit : ChildExit) (s : Supervisor) :
    StepResult :=
  let evt : Event := ⟨exit.child.spec.name, exitEventType exit⟩
  if shouldRestart exit then
    let s1 := (checkRestartIntensity now s).1
    if (checkRestartIntensity now s).2 then
      let r := executeStrategy exit s1
      { r with events := evt :: r.events }
    else
      ⟨s1, [],
        [evt, ⟨exit.child.spec.name, .SupervisorFailedIntensity⟩],
        some .intensityExceeded⟩
  else ⟨s, [], [evt], none⟩

/-- One iteration of the `run` loop on the exit channel: on a fatal
error from exit processing, record `finalErr`, mark the supervisor
stopped and cancel (the loop then returns). -/
def runExitStep (now : Int) (exit : ChildExit) (s : Supervisor) :
    StepResult :=
  let r := handleChildExit now exit s
  match r.err with
  | some e => { r with sup := { r.sup with finalErr := some e, stopped := true } }
  | none => r

/-- `Wait`/`Stop` both return `s.finalErr` once the loop has exited. -/
def waitResult (s : Supervisor) : Option GoError :=
  s.finalErr

/-- The map entries a child list induces: each record keyed by its
spec name. -/
def pairs (l : List Child) : List (String × Child) :=
  l.map (fun c => (c.spec.name, c))

/-- The names of a child list, in sequence order. -/
def namesOf (l : List Child) : List String :=
  l.map (fun c => c.spec.name)

/-- The record identities of a child list, in sequence order. -/
def idsOf (l : List Child) : List Nat :=
  l.map (fun c => c.id)

/-- The map mirrors the sequence exactly: every record appears in the
map under its name, in sequence order. -/
def syncd (s : Supervisor) : Prop :=
  s.childMap = pairs s.children

/-- The spec's phrasing of the invariant: the sequence and the Name
index hold the same set of records under the same names. -/
def sameRecords (s : Supervisor) : Prop :=
  (∀ c ∈ s.children, (c.spec.name, c) ∈ s.childMap) ∧
  (∀ p ∈ s.childMap, p.2 ∈ s.children ∧ p.1 = p.2.spec.name)

/-- Well-formedness of a supervisor state: map and sequence in sync,
unique names, distinct record identities, and identities below the
allocator's next value. -/
def WF (s : Supervisor) : Prop :=
  syncd s ∧ (namesOf s.children).Nodup ∧ (idsOf s.children).Nodup ∧
  ∀ c ∈ s.children, c.id < s.nextId

instance decidableSyncd (s : Supervisor) : Decidable (syncd s) := by
  unfold syncd
  infer_instance

instance decidableSameRecords (s : Supervisor) : Decidable (sameRecords s) := by
  unfold sameRecords
  infer_instance

instance decidableWF (s : Supervisor) : Decidable (WF s) := by
  unfold WF
  infer_instance

/-- Cumulative effect of calling `stop()` on every record whose id is
in `ids` (proof-side description of the stop loops). -/
def stopAll (ids : List Nat) (c : Child) : Child :=
  if c.id ∈ ids then { c with stopped := true } else c

/-- Proof-side description of the replacement records `buildAll`
produces: same specs in order, counts bumped, fresh consecutive ids. -/
def freshList (nid : Nat) : List Child → List Child
  | [] => []
  | ch :: rest =>
      { id := nid, spec := ch.spec, restartCount := ch.restartCount + 1,
        stopped := false } :: freshList (nid + 1) rest

/-- Truncation toward zero, the effect of Go's conversion of a float
value to the integer type `time.Duration`. -/
def ratTrunc (q : ℚ) : Int :=
  if q < 0 then ⌈q⌉ else ⌊q⌋

/-- `jitterBackoff` from backoff.go: a wrapped policy (represented by
its `ComputeDelay` function) and a jitter factor. -/
structure JitterPolicy where
  base : Int → Int
  factor : ℚ

/-- The `JitterBackoff` constructor: clamp the factor into [0, 1]. -/
def JitterBackoff (base : Int → Int) (factor : ℚ) : JitterPolicy :=
  let f1 := if factor < 0 then 0 else factor
  let f2 := if 1 < f1 then 1 else f1
  ⟨base, f2⟩

/-- `jitterBackoff.ComputeDelay`: query the base once, add a jitter of
`baseDelay * factor * (rand*2 - 1)` where `rand ∈ [0,1)` is the
`rand.Float64()` sample (passed explicitly), and clamp at zero.  The
float arithmetic is modelled by exact rationals. -/
def jitterComputeDelay (j : JitterPolicy) (rand : ℚ) (restarts : Int) : Int :=
  let baseDelay := j.base restarts
  let jit := ratTrunc ((baseDelay : ℚ) * j.factor * (rand * 2 - 1))
  let delay := baseDelay + jit
  if delay < 0 then 0 else delay

/-- `constantBackoff.ComputeDelay` from backoff.go. -/
def constantDelay (d : Int) : Int → Int :=
  fun _ => d

/-- Scenario harness for the intensity boundary: the spec of a
Permanent child named "w". -/
def wSpec : ChildSpec :=
  ⟨"w", Permanent⟩

/-- The record occupying slot "w" after `j` restarts in the intensity
scenario. -/
def wChild (j : Nat) : Child :=
  ⟨j, wSpec, (j : Int), false⟩

/-- The supervisor state of the intensity scenario after `j` restarts:
OneForOne, `maxRestarts = k`, window `w`, all failures at time `t`. -/
def stateAfter (k : Nat) (w t : Int) (j : Nat) : Supervisor :=
  ⟨OneForOne, (k : Int), w, [wChild j], [("w", wChild j)],
   List.replicate j t, false, none, j + 1⟩

/-- Drive the loop `fuel` times with an erroring exit of the current
"w" record at time `t`, stopping at the first fatal error.  Returns
the final state and all emitted events. -/
def failRun (t : Int) : Nat → Supervisor → Supervisor × List Event
  | 0, s => (s, [])
  | n + 1, s =>
    match mapLookup s.childMap "w" with
    | none => (s, [])
    | some ch =>
      let r := runExitStep t ⟨ch, true, false⟩ s
      match r.err with
      | some _ => (r.sup, r.events)
      | none =>
        let rest := failRun t n r.sup
        (rest.1, r.events ++ rest.2)

/-! ### Concrete fixtures used by witnesses and counterexamples -/

/-- Fixture: record "a" with id 0. -/
def childA : Child := ⟨0, ⟨"a", Permanent⟩, 0, false⟩

/-- Fixture: record "b" with id 1. -/
def childB : Child := ⟨1, ⟨"b", Permanent⟩, 0, false⟩

/-- Fixture: record "c" with id 2. -/
def childC : Child := ⟨2, ⟨"c", Permanent⟩, 0, false⟩

/-- Fixture: record "a" that has already restarted three times. -/
def childA3 : Child := ⟨0, ⟨"a", Permanent⟩, 3, false⟩

/-- Fixture: a RestForOne supervisor with children a, b, c. -/
def supABC : Supervisor :=
  ⟨RestForOne, 10, 60, [childA, childB, childC],
   [("a", childA), ("b", childB), ("c", childC)], [], false, none, 3⟩

/-- Fixture: a OneForOne supervisor whose only child "a" was removed
(sequence and index both empty, while its exit is still pending). -/
def supEmpty : Supervisor := ⟨OneForOne, 10, 60, [], [], [], false, none, 5⟩

/-- Fixture: like `supEmpty` but with the RestForOne strategy. -/
def supEmptyR : Supervisor :=
  ⟨RestForOne, 10, 60, [], [], [], false, none, 5⟩

/-- Fixture: a supervisor with `maxRestarts = 0`, so any
restart-warranting exit is immediately fatal. -/
def supZero : Supervisor := ⟨OneForOne, 0, 60, [], [], [], false, none, 0⟩

/-- Fixture: supervisor holding the thrice-restarted record "a". -/
def supA3 : Supervisor :=
  ⟨OneForOne, 10, 60, [childA3], [("a", childA3)], [], false, none, 1⟩

/-- Fixture: a supervisor whose stopped flag is set while child "a" is
still registered. -/
def supStopped : Supervisor :=
  ⟨OneForOne, 10, 60, [childA], [("a", childA)], [], true, none, 1⟩

/-- The pending exit of the removed record "a" (exited with an error). -/
def exitA : ChildExit := ⟨childA, true, false⟩

/-- An erroring exit of record "b" in the three-child fixture. -/
def exitB : ChildExit := ⟨childB, true, false⟩

/-! ### Basic lemmas about the map and slice operations -/

theorem stopId_spec (i : Nat) (c : Child) : (stopId i c).spec = c.spec := by
  unfold stopId; split <;> rfl

theorem stopId_id (i : Nat) (c : Child) : (stopId i c).id = c.id := by
  unfold stopId; split <;> rfl

theorem stopId_restartCount (i : Nat) (c : Child) :
    (stopId i c).restartCount = c.restartCount := by
  unfold stopId; split <;> rfl

theorem stopId_of_ne (i : Nat) (c : Child) (h : c.id ≠ i) : stopId i c = c := by
  unfold stopId; exact if_neg h

theorem stopAll_spec (ids : List Nat) (c : Child) :
    (stopAll ids c).spec = c.spec := by
  unfold stopAll; split <;> rfl

theorem stopAll_id (ids : List Nat) (c : Child) :
    (stopAll ids c).id = c.id := by
  unfold stopAll; split <;> rfl

theorem stopAll_restartCount (ids : List Nat) (c : Child) :
    (stopAll ids c).restartCount = c.restartCount := by
  unfold stopAll; split <;> rfl

theorem stopAll_of_not_mem (ids : List Nat) (c : Child) (h : c.id ∉ ids) :
    stopAll ids c = c := by
  unfold stopAll; exact if_neg h

theorem stopAll_of_mem (ids : List Nat) (c : Child) (h : c.id ∈ ids) :
    stopAll ids c = { c with stopped := true } := by
  unfold stopAll; exact if_pos h

theorem stopAll_nil (c : Child) : stopAll [] c = c := by
  simp [stopAll]

theorem stopAll_stopId (ids : List Nat) (i : Nat) (c : Child) :
    stopAll ids (stopId i c) = stopAll (i :: ids) c := by
  unfold stopAll stopId
  by_cases h : c.id = i <;> by_cases h2 : c.id ∈ ids <;> simp [h, h2]

theorem pairs_cons (c : Child) (l : List Child) :
    pairs (c :: l) = (c.spec.name, c) :: pairs l := rfl

theorem pairs_append (l1 l2 : List Child) :
    pairs (l1 ++ l2) = pairs l1 ++ pairs l2 := by
  simp [pairs]

theorem pairs_keys (l : List Child) :
    (pairs l).map Prod.fst = namesOf l := by
  simp [pairs, namesOf]

theorem pairs_map_stopId (i : Nat) (l : List Child) :
    (pairs l).map (fun p => (p.1, stopId i p.2)) = pairs (l.map (stopId i)) := by
  induction l with
  | nil => rfl
  | cons c rest ih => simp [pairs_cons, pairs, stopId_spec, ih]

theorem pairs_map_stopAll (ids : List Nat) (l : List Child) :
    (pairs l).map (fun p => (p.1, stopAll ids p.2)) =
      pairs (l.map (stopAll ids)) := by
  induction l with
  | nil => rfl
  | cons c rest ih => simp [pairs_cons, pairs, stopAll_spec, ih]

theorem namesOf_cons (c : Child) (l : List Child) :
    namesOf (c :: l) = c.spec.name :: namesOf l := rfl

theorem namesOf_append (l1 l2 : List Child) :
    namesOf (l1 ++ l2) = namesOf l1 ++ namesOf l2 := by
  simp [namesOf]

theorem namesOf_map_stopId (i : Nat) (l : List Child) :
    namesOf (l.map (stopId i)) = namesOf l := by
  simp [namesOf, stopId_spec]

theorem namesOf_map_stopAll (ids : List Nat) (l : List Child) :
    namesOf (l.map (stopAll ids)) = namesOf l := by
  simp [namesOf, stopAll_spec]

theorem idsOf_cons (c : Child) (l : List Child) :
    idsOf (c :: l) = c.id :: idsOf l := rfl

theorem idsOf_append (l1 l2 : List Child) :
    idsOf (l1 ++ l2) = idsOf l1 ++ idsOf l2 := by
  simp [idsOf]

theorem idsOf_map_stopId (i : Nat) (l : List Child) :
    idsOf (l.map (stopId i)) = idsOf l := by
  simp [idsOf, stopId_id]

theorem idsOf_map_stopAll (ids : List Nat) (l : List Child) :
    idsOf (l.map (stopAll ids)) = idsOf l := by
  simp [idsOf, stopAll_id]

theorem mapLookup_insert_self (m : List (String × Child)) (k : String)
    (v : Child) : mapLookup (mapInsert m k v) k = some v := by
  induction m with
  | nil => simp [mapInsert, mapLookup]
  | cons p rest ih =>
    obtain ⟨k2, v2⟩ := p
    by_cases h : k2 = k
    · simp [mapInsert, mapLookup, h]
    · simp [mapInsert, mapLookup, h, ih]

theorem mapLookup_pairs_none (l : List Child) (k : String) :
    mapLookup (pairs l) k = none ↔ k ∉ namesOf l := by
  induction l with
  | nil => simp [pairs, mapLookup, namesOf]
  | cons c rest ih =>
    by_cases h : c.spec.name = k
    · simp [pairs, mapLookup, namesOf, h]
    · simp only [pairs, List.map_cons, mapLookup, namesOf, if_neg h] at ih ⊢
      simp [ih, Ne.symm h]

theorem mapLookup_pairs_some (l : List Child) (k : String) (ch : Child)
    (h : mapLookup (pairs l) k = some ch) :
    ch ∈ l ∧ ch.spec.name = k := by
  induction l with
  | nil => simp [pairs, mapLookup] at h
  | cons c rest ih =>
    by_cases hc : c.spec.name = k
    · simp [pairs_cons, mapLookup, hc] at h
      subst h
      exact ⟨List.mem_cons_self _ _, hc⟩
    · simp [pairs_cons, mapLookup, hc] at h
      obtain ⟨h1, h2⟩ := ih h
      exact ⟨List.mem_cons_of_mem _ h1, h2⟩

theorem mapInsert_append_new (m : List (String × Child)) (k : String)
    (v : Child) (h : ∀ p ∈ m, p.1 ≠ k) :
    mapInsert m k v = m ++ [(k, v)] := by
  induction m with
  | nil => rfl
  | cons p rest ih =>
    obtain ⟨k2, v2⟩ := p
    have hk : k2 ≠ k := h (k2, v2) (List.mem_cons_self _ _)
    simp [mapInsert, hk]
    exact ih (fun p hp => h p (List.mem_cons_of_mem _ hp))

theorem mapInsert_middle (pre : List (String × Child)) (k : String)
    (v nc : Child) (tail : List (String × Child))
    (h : ∀ p ∈ pre, p.1 ≠ k) :
    mapInsert (pre ++ (k, v) :: tail) k nc = pre ++ (k, nc) :: tail := by
  induction pre with
  | nil => simp [mapInsert]
  | cons p rest ih =>
    obtain ⟨k2, v2⟩ := p
    have hk : k2 ≠ k := h (k2, v2) (List.mem_cons_self _ _)
    simp [mapInsert, hk]
    exact ih (fun p hp => h p (List.mem_cons_of_mem _ hp))

theorem map_stopId_of_not_mem (l : List Child) (i : Nat)
    (h : ∀ x ∈ l, x.id ≠ i) : l.map (stopId i) = l := by
  induction l with
  | nil => rfl
  | cons c rest ih =>
    have h1 : c.id ≠ i := h c (List.mem_cons_self _ _)
    simp only [List.map_cons, stopId_of_ne i c h1]
    rw [ih (fun x hx => h x (List.mem_cons_of_mem _ hx))]

theorem mapDelete_cons_self (k : String) (v : Child)
    (m : List (String × Child)) :
    mapDelete ((k, v) :: m) k = mapDelete m k := by
  simp [mapDelete, List.filter_cons]

theorem mapDelete_cons_ne (k k2 : String) (v : Child)
    (m : List (String × Child)) (h : k2 ≠ k) :
    mapDelete ((k2, v) :: m) k = (k2, v) :: mapDelete m k := by
  simp [mapDelete, List.filter_cons, h]

theorem mapDelete_pairs_not_mem (l : List Child) (name : String)
    (h : name ∉ namesOf l) : mapDelete (pairs l) name = pairs l := by
  rw [mapDelete, List.filter_eq_self.mpr]
  intro p hp
  simp only [pairs, List.mem_map] at hp
  obtain ⟨c, hc, rfl⟩ := hp
  simp only [decide_eq_true_eq]
  intro heq
  exact h (by simp only [namesOf, List.mem_map]; exact ⟨c, hc, heq⟩)

theorem stopAll_nil_fun : stopAll [] = id := by
  funext c; simp [stopAll]

theorem stopAll_stopId_fun (ids : List Nat) (i : Nat) :
    stopAll ids ∘ stopId i = stopAll (i :: ids) := by
  funext c; exact stopAll_stopId ids i c

theorem pairStop_nil_fun :
    (fun p : String × Child => (p.1, stopAll [] p.2)) = id := by
  funext p; simp [stopAll]

theorem pairStop_comp (ids : List Nat) (i : Nat) :
    ((fun p : String × Child => (p.1, stopAll ids p.2)) ∘
      (fun p : String × Child => (p.1, stopId i p.2))) =
      fun p : String × Child => (p.1, stopAll (i :: ids) p.2) := by
  funext p; simp [Function.comp, stopAll_stopId]

/-- Cumulative description of the stop loops: folding `supStop` over a
list of records flags exactly the aliases of their ids, in both the
sequence and the map. -/
theorem foldStop_eq (todo : List Child) (s : Supervisor) :
    List.foldl (fun acc ch => supStop acc ch.id) s todo =
      { s with
        children := s.children.map (stopAll (idsOf todo)),
        childMap :=
          s.childMap.map (fun p => (p.1, stopAll (idsOf todo) p.2)) } := by
  induction todo generalizing s with
  | nil =>
    simp only [List.foldl_nil, idsOf, List.map_nil]
    rw [pairStop_nil_fun, stopAll_nil_fun, List.map_id, List.map_id]
  | cons ch rest ih =>
    simp only [List.foldl_cons]
    rw [ih]
    simp only [supStop, List.map_map, stopAll_stopId_fun, pairStop_comp,
      idsOf_cons]

theorem freshList_length (nid : Nat) (l : List Child) :
    (freshList nid l).length = l.length := by
  induction l generalizing nid with
  | nil => rfl
  | cons c rest ih => simp [freshList, ih]

theorem freshList_names (nid : Nat) (l : List Child) :
    namesOf (freshList nid l) = namesOf l := by
  induction l generalizing nid with
  | nil => rfl
  | cons c rest ih =>
    simp only [freshList, namesOf_cons]
    rw [ih]

theorem freshList_id_bound (nid : Nat) (l : List Child) :
    ∀ c ∈ freshList nid l, nid ≤ c.id ∧ c.id < nid + l.length := by
  induction l generalizing nid with
  | nil => simp [freshList]
  | cons c rest ih =>
    intro x hx
    simp only [freshList, List.mem_cons] at hx
    rcases hx with rfl | hx
    · simp only [List.length_cons]; omega
    · obtain ⟨h1, h2⟩ := ih (nid + 1) x hx
      simp only [List.length_cons]; omega

theorem freshList_ids_nodup (nid : Nat) (l : List Child) :
    (idsOf (freshList nid l)).Nodup := by
  induction l generalizing nid with
  | nil => simp [freshList, idsOf]
  | cons c rest ih =>
    simp only [freshList, idsOf_cons, List.nodup_cons]
    constructor
    · intro hmem
      simp only [idsOf, List.mem_map] at hmem
      obtain ⟨c2, hc2, hid⟩ := hmem
      have := freshList_id_bound (nid + 1) rest c2 hc2
      omega
    · exact ih (nid + 1)

theorem freshList_getElem (nid : Nat) (l : List Child) (j : Nat) :
    (freshList nid l)[j]? =
      l[j]?.map (fun ch =>
        (⟨nid + j, ch.spec, ch.restartCount + 1, false⟩ : Child)) := by
  induction l generalizing nid j with
  | nil => simp [freshList]
  | cons c rest ih =>
    cases j with
    | zero => simp [freshList]
    | succ m =>
      simp only [freshList, List.getElem?_cons_succ]
      rw [ih (nid + 1) m, show nid + (m + 1) = nid + 1 + m from by omega]

theorem restartEvents_freshList (nid : Nat) (l : List Child) :
    restartEvents (freshList nid l) = restartEvents l := by
  induction l generalizing nid with
  | nil => rfl
  | cons c rest ih =>
    simp only [freshList, restartEvents, List.flatMap_cons] at ih ⊢
    rw [ih]

theorem restartEvents_map_stopAll (ids : List Nat) (l : List Child) :
    restartEvents (l.map (stopAll ids)) = restartEvents l := by
  induction l with
  | nil => rfl
  | cons c rest ih =>
    simp only [List.map_cons, restartEvents, List.flatMap_cons,
      stopAll_spec] at ih ⊢
    rw [ih]

theorem buildAll_fst (old : List Child) (nid : Nat)
    (m : List (String × Child)) :
    (buildAll nid old m).1 = nid + old.length := by
  induction old generalizing nid m with
  | nil => simp [buildAll]
  | cons c rest ih =>
    simp only [buildAll, List.length_cons]
    rw [ih]
    omega

theorem buildAll_children (old : List Child) (nid : Nat)
    (m : List (String × Child)) :
    (buildAll nid old m).2.1 = freshList nid old := by
  induction old generalizing nid m with
  | nil => rfl
  | cons c rest ih =>
    simp only [buildAll, freshList]
    rw [ih]

theorem buildAll_map (old : List Child) :
    ∀ (nid : Nat) (pre : List (String × Child)),
    (namesOf old).Nodup →
    (∀ n ∈ namesOf old, ∀ p ∈ pre, p.1 ≠ n) →
    (buildAll nid old (pre ++ pairs old)).2.2 =
      pre ++ pairs (freshList nid old) := by
  induction old with
  | nil =>
    intro nid pre _ _
    simp [buildAll, pairs, freshList]
  | cons ch rest ih =>
    intro nid pre hnodup hdisj
    have hpre : ∀ p ∈ pre, p.1 ≠ ch.spec.name :=
      fun p hp => hdisj ch.spec.name (by simp [namesOf]) p hp
    have hhead : ch.spec.name ∉ namesOf rest := by
      simp only [namesOf_cons, List.nodup_cons] at hnodup
      exact hnodup.1
    simp only [buildAll, pairs_cons]
    rw [mapInsert_middle pre ch.spec.name ch _ (pairs rest) hpre,
      List.append_cons pre _ (pairs rest)]
    rw [ih (nid + 1) (pre ++ [(ch.spec.name,
      (⟨nid, ch.spec, ch.restartCount + 1, false⟩ : Child))])
      (by simp only [namesOf_cons, List.nodup_cons] at hnodup; exact hnodup.2)
      ?_]
    · simp only [freshList, pairs_cons, List.append_assoc,
        List.singleton_append]
    · intro n hn p hp
      rcases List.mem_append.mp hp with hp1 | hp2
      · exact hdisj n (by simp [namesOf_cons, hn]) p hp1
      · simp only [List.mem_singleton] at hp2
        subst hp2
        intro heq
        have heq2 : ch.spec.name = n := heq
        exact hhead (heq2 ▸ hn)

theorem replaceFirst_insert (l : List Child) (name : String) (nc : Child)
    (hname : name ∈ namesOf l) (hnc : nc.spec.name = name) :
    mapInsert (pairs l) name nc = pairs (replaceFirstByName l name nc) := by
  induction l with
  | nil => simp [namesOf] at hname
  | cons c rest ih =>
    by_cases h : c.spec.name = name
    · simp [pairs, mapInsert, replaceFirstByName, h, hnc]
    · have hname2 : name ∈ namesOf rest := by
        simp only [namesOf_cons, List.mem_cons] at hname
        rcases hname with heq | hm
        · exact absurd heq.symm h
        · exact hm
      simp only [pairs] at ih ⊢
      simp [mapInsert, replaceFirstByName, h, ih hname2]

theorem replaceFirst_names (l : List Child) (name : String) (nc : Child)
    (hnc : nc.spec.name = name) :
    namesOf (replaceFirstByName l name nc) = namesOf l := by
  induction l with
  | nil => rfl
  | cons c rest ih =>
    by_cases h : c.spec.name = name
    · simp [replaceFirstByName, h, namesOf_cons, hnc]
    · simp [replaceFirstByName, h, namesOf_cons, ih]

theorem replaceFirst_mem (l : List Child) (name : String) (nc c : Child)
    (hc : c ∈ replaceFirstByName l name nc) : c ∈ l ∨ c = nc := by
  induction l with
  | nil => simp [replaceFirstByName] at hc
  | cons c2 rest ih =>
    by_cases h : c2.spec.name = name
    · simp only [replaceFirstByName, if_pos h, List.mem_cons] at hc
      rcases hc with rfl | hc
      · exact Or.inr rfl
      · exact Or.inl (List.mem_cons_of_mem _ hc)
    · simp only [replaceFirstByName, if_neg h, List.mem_cons] at hc
      rcases hc with rfl | hc
      · exact Or.inl (List.mem_cons_self _ _)
      · rcases ih hc with h1 | h2
        · exact Or.inl (List.mem_cons_of_mem _ h1)
        · exact Or.inr h2

theorem replaceFirst_ids_nodup (l : List Child) (name : String) (nc : Child)
    (hfresh : ∀ c ∈ l, c.id ≠ nc.id) (h : (idsOf l).Nodup) :
    (idsOf (replaceFirstByName l name nc)).Nodup := by
  induction l with
  | nil => simp [replaceFirstByName, idsOf]
  | cons c rest ih =>
    simp only [idsOf_cons, List.nodup_cons] at h
    by_cases hn : c.spec.name = name
    · simp only [replaceFirstByName, if_pos hn, idsOf_cons, List.nodup_cons]
      refine ⟨?_, h.2⟩
      intro hmem
      simp only [idsOf, List.mem_map] at hmem
      obtain ⟨x, hx, hid⟩ := hmem
      exact hfresh x (List.mem_cons_of_mem _ hx) hid
    · simp only [replaceFirstByName, if_neg hn, idsOf_cons, List.nodup_cons]
      refine ⟨?_, ih (fun x hx => hfresh x (List.mem_cons_of_mem _ hx)) h.2⟩
      intro hmem
      simp only [idsOf, List.mem_map] at hmem
      obtain ⟨x, hx, hid⟩ := hmem
      rcases replaceFirst_mem rest name nc x hx with h1 | h2
      · exact h.1 (by simp only [idsOf, List.mem_map]; exact ⟨x, h1, hid⟩)
      · have hvv : nc.id = c.id := h2 ▸ hid
        exact hfresh c (List.mem_cons_self _ _) hvv.symm

/-- Characterization of `doRemoveChild`'s state change on a synced
state: the looked-up record is removed from both structures, leaving a
synced sublist. -/
theorem remove_char (l : List Child) (name : String) (ch : Child)
    (hlk : mapLookup (pairs l) name = some ch)
    (hn : (namesOf l).Nodup) (hi : (idsOf l).Nodup) :
    ∃ l2 : List Child,
      eraseFirstById (l.map (stopId ch.id)) ch.id = l2 ∧
      mapDelete ((pairs l).map (fun p => (p.1, stopId ch.id p.2))) name =
        pairs l2 ∧
      (namesOf l2).Nodup ∧ (idsOf l2).Nodup ∧ ∀ c ∈ l2, c ∈ l := by
  induction l with
  | nil => simp [pairs, mapLookup] at hlk
  | cons c rest ih =>
    simp only [namesOf_cons, List.nodup_cons] at hn
    simp only [idsOf_cons, List.nodup_cons] at hi
    by_cases h : c.spec.name = name
    · have hch : ch = c := by
        simp [pairs_cons, mapLookup, h] at hlk
        exact hlk.symm
      subst hch
      have hrest : ∀ x ∈ rest, x.id ≠ ch.id := by
        intro x hx heq
        exact hi.1 (by simp only [idsOf, List.mem_map]; exact ⟨x, hx, heq⟩)
      have hnr : name ∉ namesOf rest := h ▸ hn.1
      refine ⟨rest, ?_, ?_, hn.2, hi.2, fun c2 hc2 => List.mem_cons_of_mem _ hc2⟩
      · simp [eraseFirstById, stopId_id,
          map_stopId_of_not_mem rest ch.id hrest]
      · simp only [pairs_cons, List.map_cons]
        rw [pairs_map_stopId, map_stopId_of_not_mem rest ch.id hrest]
        rw [h, mapDelete_cons_self]
        exact mapDelete_pairs_not_mem rest name hnr
    · have hlk2 : mapLookup (pairs rest) name = some ch := by
        simpa [pairs_cons, mapLookup, h] using hlk
      obtain ⟨hmem, hname⟩ := mapLookup_pairs_some rest name ch hlk2
      have hcid : c.id ≠ ch.id := by
        intro heq
        exact hi.1 (by simp only [idsOf, List.mem_map]; exact ⟨ch, hmem, heq.symm⟩)
      obtain ⟨l2, he, hd, hn2, hi2, hsub⟩ := ih hlk2 hn.2 hi.2
      refine ⟨c :: l2, ?_, ?_, ?_, ?_, ?_⟩
      · simp only [List.map_cons, eraseFirstById, stopId_of_ne ch.id c hcid,
          if_neg hcid]
        rw [he]
      · simp only [pairs_cons, List.map_cons, stopId_of_ne ch.id c hcid]
        rw [mapDelete_cons_ne name c.spec.name c _ h]
        rw [hd]
      · simp only [namesOf_cons, List.nodup_cons]
        refine ⟨?_, hn2⟩
        intro hmem2
        simp only [namesOf, List.mem_map] at hmem2
        obtain ⟨x, hx, hxn⟩ := hmem2
        exact hn.1 (by
          simp only [namesOf, List.mem_map]
          exact ⟨x, hsub x hx, hxn⟩)
      · simp only [idsOf_cons, List.nodup_cons]
        refine ⟨?_, hi2⟩
        intro hmem2
        simp only [idsOf, List.mem_map] at hmem2
        obtain ⟨x, hx, hxn⟩ := hmem2
        exact hi.1 (by
          simp only [idsOf, List.mem_map]
          exact ⟨x, hsub x hx, hxn⟩)
      · intro x hx
        rcases List.mem_cons.mp hx with rfl | hx2
        · exact List.mem_cons_self _ _
        · exact List.mem_cons_of_mem _ (hsub x hx2)

theorem firstAfterIdx_none (cutoff : Int) (l : List Int) :
    firstAfterIdx cutoff l = none ↔ ∀ x ∈ l, x ≤ cutoff := by
  induction l with
  | nil => simp [firstAfterIdx]
  | cons t rest ih =>
    by_cases h : cutoff < t
    · simp only [firstAfterIdx, if_pos h]
      constructor
      · intro hc; cases hc
      · intro hall
        exact absurd (hall t (List.mem_cons_self _ _)) (not_le.mpr h)
    · simp only [firstAfterIdx, if_neg h, Option.map_eq_none', ih,
        List.mem_cons]
      constructor
      · intro hall x hx
        rcases hx with rfl | hx2
        · exact not_lt.mp h
        · exact hall x hx2
      · intro hall x hx
        exact hall x (Or.inr hx)

theorem drop_firstAfterIdx (cutoff : Int) (l : List Int)
    (hsort : List.Pairwise (· ≤ ·) l) (hex : ∃ x ∈ l, cutoff < x) :
    l.drop ((firstAfterIdx cutoff l).getD 0) =
      l.filter (fun x => decide (cutoff < x)) := by
  induction l with
  | nil => simp at hex
  | cons t rest ih =>
    rw [List.pairwise_cons] at hsort
    by_cases h : cutoff < t
    · simp only [firstAfterIdx, if_pos h, Option.getD_some, List.drop_zero]
      have hall : ∀ x ∈ rest, cutoff < x := fun x hx =>
        lt_of_lt_of_le h (hsort.1 x hx)
      rw [List.filter_cons_of_pos (by simpa using h)]
      rw [List.filter_eq_self.mpr (fun x hx => by simpa using hall x hx)]
    · have hex2 : ∃ x ∈ rest, cutoff < x := by
        rcases hex with ⟨x, hx, hcx⟩
        rcases List.mem_cons.mp hx with rfl | hx2
        · exact absurd hcx h
        · exact ⟨x, hx2, hcx⟩
      obtain ⟨j, hj⟩ : ∃ j, firstAfterIdx cutoff rest = some j := by
        cases hfa : firstAfterIdx cutoff rest with
        | none =>
          obtain ⟨x, hx, hcx⟩ := hex2
          exact absurd ((firstAfterIdx_none cutoff rest).mp hfa x hx)
            (not_le.mpr hcx)
        | some j => exact ⟨j, rfl⟩
      simp only [firstAfterIdx, if_neg h, hj, Option.map_some',
        Option.getD_some]
      rw [List.drop_succ_cons,
        List.filter_cons_of_neg (by simpa using h)]
      have := ih hsort.2 hex2
      rw [hj] at this
      simpa using this

/-- The intensity check on a chronologically sorted history with a
positive window: append "now", retain exactly the strictly-in-window
entries, and succeed iff the retained count is within budget. -/
theorem checkRestartIntensity_eq (now : Int) (s : Supervisor)
    (hw : 0 < s.restartWindow)
    (hsort : List.Pairwise (· ≤ ·) s.restartHistory)
    (hle : ∀ x ∈ s.restartHistory, x ≤ now) :
    (checkRestartIntensity now s).1 =
      { s with restartHistory :=
          ((s.restartHistory ++ [now]).filter
            (fun x => decide (now - s.restartWindow < x))) } ∧
    ((checkRestartIntensity now s).2 = true ↔
      (((s.restartHistory ++ [now]).filter
          (fun x => decide (now - s.restartWindow < x))).length : Int)
        ≤ s.maxRestarts) := by
  have hsort2 : List.Pairwise (· ≤ ·) (s.restartHistory ++ [now]) := by
    rw [List.pairwise_append]
    refine ⟨hsort, List.pairwise_singleton _ _, ?_⟩
    intro x hx y hy
    simp only [List.mem_singleton] at hy
    subst hy
    exact hle x hx
  have hex : ∃ x ∈ s.restartHistory ++ [now], now - s.restartWindow < x :=
    ⟨now, by simp, by linarith⟩
  have hdrop := drop_firstAfterIdx (now - s.restartWindow) _ hsort2 hex
  constructor
  · simp only [checkRestartIntensity]
    rw [hdrop]
  · simp only [checkRestartIntensity]
    rw [hdrop]
    exact decide_eq_true_iff

theorem namesOf_take (l : List Child) (i : Nat) :
    namesOf (l.take i) = (namesOf l).take i := by
  simp [namesOf, List.map_take]

theorem namesOf_drop (l : List Child) (i : Nat) :
    namesOf (l.drop i) = (namesOf l).drop i := by
  simp [namesOf, List.map_drop]

theorem idsOf_take (l : List Child) (i : Nat) :
    idsOf (l.take i) = (idsOf l).take i := by
  simp [idsOf, List.map_take]

theorem idsOf_drop (l : List Child) (i : Nat) :
    idsOf (l.drop i) = (idsOf l).drop i := by
  simp [idsOf, List.map_drop]

theorem syncd_sameRecords (s : Supervisor) (h : syncd s) : sameRecords s := by
  constructor
  · intro c hc
    rw [h]
    simp only [pairs, List.mem_map]
    exact ⟨c, hc, rfl⟩
  · intro p hp
    rw [h] at hp
    simp only [pairs, List.mem_map] at hp
    obtain ⟨c, hc, rfl⟩ := hp
    exact ⟨hc, rfl⟩

theorem WF_doAddChild (spec : ChildSpec) (s : Supervisor) (h : WF s) :
    WF (doAddChild spec s).sup := by
  obtain ⟨hsync, hnames, hids, hlt⟩ := h
  unfold doAddChild
  by_cases hstop : s.stopped = true
  · simp only [if_pos hstop]
    exact ⟨hsync, hnames, hids, hlt⟩
  · by_cases hex : (mapLookup s.childMap spec.name).isSome = true
    · simp only [if_neg hstop, if_pos hex]
      exact ⟨hsync, hnames, hids, hlt⟩
    · have hnone : mapLookup s.childMap spec.name = none :=
        Option.not_isSome_iff_eq_none.mp hex
      have hnot : spec.name ∉ namesOf s.children := by
        rw [hsync] at hnone
        exact (mapLookup_pairs_none _ _).mp hnone
      simp only [if_neg hstop, if_neg hex]
      have hkeys : ∀ p ∈ s.childMap, p.1 ≠ spec.name := by
        intro p hp
        rw [hsync] at hp
        simp only [pairs, List.mem_map] at hp
        obtain ⟨c, hc, rfl⟩ := hp
        intro heq
        exact hnot (by simp only [namesOf, List.mem_map]; exact ⟨c, hc, heq⟩)
      refine ⟨?_, ?_, ?_, ?_⟩
      · show mapInsert s.childMap spec.name (newChild s.nextId spec) =
          pairs (s.children ++ [newChild s.nextId spec])
        rw [mapInsert_append_new s.childMap spec.name _ hkeys, hsync,
          pairs_append]
        rfl
      · show (namesOf (s.children ++ [newChild s.nextId spec])).Nodup
        rw [namesOf_append]
        rw [List.nodup_append]
        refine ⟨hnames, List.nodup_singleton _, ?_⟩
        intro a ha hb
        simp only [namesOf, List.map_cons, List.map_nil,
          List.mem_singleton] at hb
        subst hb
        exact hnot ha
      · show (idsOf (s.children ++ [newChild s.nextId spec])).Nodup
        rw [idsOf_append]
        rw [List.nodup_append]
        refine ⟨hids, List.nodup_singleton _, ?_⟩
        intro a ha hb
        simp only [idsOf, List.map_cons, List.map_nil,
          List.mem_singleton] at hb
        subst hb
        simp only [idsOf, List.mem_map] at ha
        obtain ⟨c, hc, hcid⟩ := ha
        exact Nat.ne_of_lt (hlt c hc) hcid
      · intro c hc
        rcases List.mem_append.mp hc with h1 | h2
        · exact Nat.lt_succ_of_lt (hlt c h1)
        · simp only [List.mem_singleton] at h2
          subst h2
          exact Nat.lt_succ_self _

theorem WF_doRemoveChild (name : String) (s : Supervisor) (h : WF s) :
    WF (doRemoveChild name s).sup := by
  obtain ⟨hsync, hnames, hids, hlt⟩ := h
  unfold doRemoveChild
  cases hlk : mapLookup s.childMap name with
  | none => exact ⟨hsync, hnames, hids, hlt⟩
  | some ch =>
    have hlk2 : mapLookup (pairs s.children) name = some ch := hsync ▸ hlk
    obtain ⟨l2, he, hd, hn2, hi2, hsub⟩ :=
      remove_char s.children name ch hlk2 hnames hids
    refine ⟨?_, ?_, ?_, ?_⟩
    · show mapDelete (s.childMap.map (fun p => (p.1, stopId ch.id p.2))) name
        = pairs (eraseFirstById (s.children.map (stopId ch.id)) ch.id)
      rw [hsync, he, hd]
    · show (namesOf (eraseFirstById (s.children.map (stopId ch.id)) ch.id)).Nodup
      rw [he]; exact hn2
    · show (idsOf (eraseFirstById (s.children.map (stopId ch.id)) ch.id)).Nodup
      rw [he]; exact hi2
    · show ∀ c ∈ eraseFirstById (s.children.map (stopId ch.id)) ch.id,
        c.id < s.nextId
      rw [he]
      exact fun c hc => hlt c (hsub c hc)

theorem WF_doRestartChild (name : String) (s : Supervisor) (h : WF s) :
    WF (doRestartChild name s).sup := by
  obtain ⟨hsync, hnames, hids, hlt⟩ := h
  unfold doRestartChild
  cases hlk : mapLookup s.childMap name with
  | none => exact ⟨hsync, hnames, hids, hlt⟩
  | some ch =>
    have hlk2 : mapLookup (pairs s.children) name = some ch := hsync ▸ hlk
    obtain ⟨hmem, hname⟩ := mapLookup_pairs_some _ _ _ hlk2
    have hnc : (newChild s.nextId ch.spec).spec.name = name := hname
    have hmem2 : name ∈ namesOf (s.children.map (stopId ch.id)) := by
      rw [namesOf_map_stopId]
      simp only [namesOf, List.mem_map]
      exact ⟨ch, hmem, hname⟩
    have hfresh : ∀ c ∈ s.children.map (stopId ch.id),
        c.id ≠ (newChild s.nextId ch.spec).id := by
      intro c hc
      simp only [List.mem_map] at hc
      obtain ⟨x, hx, rfl⟩ := hc
      rw [stopId_id]
      exact Nat.ne_of_lt (hlt x hx)
    refine ⟨?_, ?_, ?_, ?_⟩
    · show mapInsert (s.childMap.map (fun p => (p.1, stopId ch.id p.2))) name
          (newChild s.nextId ch.spec)
        = pairs (replaceFirstByName (s.children.map (stopId ch.id)) name
            (newChild s.nextId ch.spec))
      rw [hsync, pairs_map_stopId]
      exact replaceFirst_insert _ name _ hmem2 hnc
    · show (namesOf (replaceFirstByName (s.children.map (stopId ch.id)) name
        (newChild s.nextId ch.spec))).Nodup
      rw [replaceFirst_names _ name _ hnc, namesOf_map_stopId]
      exact hnames
    · show (idsOf (replaceFirstByName (s.children.map (stopId ch.id)) name
        (newChild s.nextId ch.spec))).Nodup
      refine replaceFirst_ids_nodup _ name _ hfresh ?_
      rw [idsOf_map_stopId]
      exact hids
    · show ∀ c ∈ replaceFirstByName (s.children.map (stopId ch.id)) name
        (newChild s.nextId ch.spec), c.id < s.nextId + 1
      intro c hc
      rcases replaceFirst_mem _ name _ c hc with h1 | h2
      · simp only [List.mem_map] at h1
        obtain ⟨x, hx, rfl⟩ := h1
        rw [stopId_id]
        exact Nat.lt_succ_of_lt (hlt x hx)
      · subst h2
        exact Nat.lt_succ_self _

theorem WF_restartOne (exit : ChildExit) (s : Supervisor)
    (hin : exit.child.spec.name ∈ namesOf s.children) (h : WF s) :
    WF (restartOne exit s).sup := by
  obtain ⟨hsync, hnames, hids, hlt⟩ := h
  unfold restartOne
  have hfresh : ∀ c ∈ s.children, c.id ≠ s.nextId :=
    fun c hc => Nat.ne_of_lt (hlt c hc)
  refine ⟨?_, ?_, ?_, ?_⟩
  · show mapInsert s.childMap exit.child.spec.name _
      = pairs (replaceFirstByName s.children exit.child.spec.name _)
    rw [hsync]
    exact replaceFirst_insert _ _ _ hin rfl
  · show (namesOf (replaceFirstByName s.children exit.child.spec.name _)).Nodup
    rw [replaceFirst_names s.children exit.child.spec.name
      { id := s.nextId, spec := exit.child.spec,
        restartCount := exit.child.restartCount + 1, stopped := false } rfl]
    exact hnames
  · show (idsOf (replaceFirstByName s.children exit.child.spec.name _)).Nodup
    exact replaceFirst_ids_nodup _ _ _ hfresh hids
  · show ∀ c ∈ replaceFirstByName s.children exit.child.spec.name
      { id := s.nextId, spec := exit.child.spec,
        restartCount := exit.child.restartCount + 1, stopped := false },
      c.id < s.nextId + 1
    intro c hc
    rcases replaceFirst_mem _ _ _ c hc with h1 | h2
    · exact Nat.lt_succ_of_lt (hlt c h1)
    · subst h2
      exact Nat.lt_succ_self _

theorem WF_restartAll (s : Supervisor) (h : WF s) :
    WF (restartAll s).sup := by
  obtain ⟨hsync, hnames, hids, hlt⟩ := h
  unfold restartAll
  rw [foldStop_eq]
  have hsync0 : s.childMap.map
      (fun p => (p.1, stopAll (idsOf s.children) p.2)) =
      pairs (s.children.map (stopAll (idsOf s.children))) := by
    rw [hsync, pairs_map_stopAll]
  have hnames0 : (namesOf (s.children.map (stopAll (idsOf s.children)))).Nodup := by
    rw [namesOf_map_stopAll]; exact hnames
  have hmap := buildAll_map (s.children.map (stopAll (idsOf s.children)))
    s.nextId [] hnames0 (by intro n _ p hp; cases hp)
  simp only [List.nil_append] at hmap
  rw [hsync0]
  refine ⟨?_, ?_, ?_, ?_⟩
  · show (buildAll s.nextId _ (pairs _)).2.2 = pairs (buildAll s.nextId _ (pairs _)).2.1
    rw [hmap, buildAll_children]
  · show (namesOf (buildAll s.nextId _ (pairs _)).2.1).Nodup
    rw [buildAll_children, freshList_names, namesOf_map_stopAll]
    exact hnames
  · show (idsOf (buildAll s.nextId _ (pairs _)).2.1).Nodup
    rw [buildAll_children]
    exact freshList_ids_nodup _ _
  · show ∀ c ∈ (buildAll s.nextId (s.children.map (stopAll (idsOf s.children)))
        (pairs (s.children.map (stopAll (idsOf s.children))))).2.1,
      c.id < (buildAll s.nextId (s.children.map (stopAll (idsOf s.children)))
        (pairs (s.children.map (stopAll (idsOf s.children))))).1
    intro c hc
    rw [buildAll_children] at hc
    rw [buildAll_fst]
    have := freshList_id_bound s.nextId _ c hc
    omega

theorem WF_restartRestForOne (exit : ChildExit) (s : Supervisor) (h : WF s) :
    WF (restartRestForOne exit s).sup := by
  obtain ⟨hsync, hnames, hids, hlt⟩ := h
  unfold restartRestForOne
  split
  case _ => exact ⟨hsync, hnames, hids, hlt⟩
  case _ i hfi =>
    rw [foldStop_eq]
    set sufIds := idsOf (s.children.drop i) with hsuf
    set l0 := s.children.map (stopAll sufIds) with hl0
    have hsync0 : s.childMap.map (fun p => (p.1, stopAll sufIds p.2)) =
        pairs l0 := by
      rw [hsync, pairs_map_stopAll]
    have hnames0 : namesOf l0 = namesOf s.children := namesOf_map_stopAll _ _
    have hids0 : idsOf l0 = idsOf s.children := idsOf_map_stopAll _ _
    have hsplit : l0 = l0.take i ++ l0.drop i := (List.take_append_drop i l0).symm
    have hnodup_drop : (namesOf (l0.drop i)).Nodup := by
      rw [namesOf_drop, hnames0]
      exact hnames.sublist (List.drop_sublist i _)
    have hdisj : ∀ n ∈ namesOf (l0.drop i), ∀ p ∈ pairs (l0.take i),
        p.1 ≠ n := by
      intro n hn p hp
      simp only [pairs, List.mem_map] at hp
      obtain ⟨c, hc, rfl⟩ := hp
      intro heq
      have hnams : (namesOf (l0.take i) ++ namesOf (l0.drop i)).Nodup := by
        rw [← namesOf_append, ← hsplit, hnames0]
        exact hnames
      have hdj := (List.nodup_append.mp hnams).2.2
      exact hdj (by
        simp only [namesOf, List.mem_map]; exact ⟨c, hc, heq⟩) hn
    have hmap := buildAll_map (l0.drop i) s.nextId (pairs (l0.take i))
      hnodup_drop hdisj
    have hpre : pairs l0 = pairs (l0.take i) ++ pairs (l0.drop i) := by
      conv_lhs => rw [hsplit]
      rw [pairs_append]
    rw [hsync0, hpre]
    refine ⟨?_, ?_, ?_, ?_⟩
    · show (buildAll s.nextId (l0.drop i) _).2.2 =
        pairs (l0.take i ++ (buildAll s.nextId (l0.drop i) _).2.1)
      rw [hmap, buildAll_children, pairs_append]
    · show (namesOf (l0.take i ++ (buildAll s.nextId (l0.drop i) _).2.1)).Nodup
      rw [namesOf_append, buildAll_children, freshList_names,
        ← namesOf_append, ← hsplit, hnames0]
      exact hnames
    · show (idsOf (l0.take i ++ (buildAll s.nextId (l0.drop i) _).2.1)).Nodup
      rw [idsOf_append, buildAll_children]
      rw [List.nodup_append]
      refine ⟨?_, freshList_ids_nodup _ _, ?_⟩
      · have : (idsOf (l0.take i) ++ idsOf (l0.drop i)).Nodup := by
          rw [← idsOf_append, ← hsplit, hids0]
          exact hids
        exact (List.nodup_append.mp this).1
      · intro a ha hb
        simp only [idsOf, List.mem_map] at ha
        obtain ⟨c, hc, rfl⟩ := ha
        have hcl0 : c ∈ l0 := List.mem_of_mem_take hc
        have hlt2 : c.id < s.nextId := by
          rw [hl0] at hcl0
          simp only [List.mem_map] at hcl0
          obtain ⟨x, hx, rfl⟩ := hcl0
          rw [stopAll_id]
          exact hlt x hx
        simp only [idsOf, List.mem_map] at hb
        obtain ⟨c2, hc2, hcid⟩ := hb
        have := freshList_id_bound s.nextId _ c2 hc2
        omega
    · show ∀ c ∈ l0.take i ++ (buildAll s.nextId (l0.drop i)
          (pairs (l0.take i) ++ pairs (l0.drop i))).2.1,
        c.id < (buildAll s.nextId (l0.drop i)
          (pairs (l0.take i) ++ pairs (l0.drop i))).1
      intro c hc
      rw [buildAll_fst]
      rcases List.mem_append.mp hc with h1 | h2
      · have hcl0 : c ∈ l0 := List.mem_of_mem_take h1
        have hlt2 : c.id < s.nextId := by
          rw [hl0] at hcl0
          simp only [List.mem_map] at hcl0
          obtain ⟨x, hx, rfl⟩ := hcl0
          rw [stopAll_id]
          exact hlt x hx
        omega
      · rw [buildAll_children] at h2
        have := freshList_id_bound s.nextId _ c h2
        omega

/-! ### The intensity boundary scenario -/

theorem firstAfterIdx_replicate (w t : Int) (hw : 0 < w) (j : Nat) :
    firstAfterIdx (t - w) (List.replicate j t ++ [t]) = some 0 := by
  have hlt : t - w < t := by linarith
  cases j with
  | zero => simp [firstAfterIdx, hlt]
  | succ m =>
    rw [List.replicate_succ]
    simp [firstAfterIdx, hlt]

theorem checkRestartIntensity_stateAfter (k : Nat) (w t : Int) (hw : 0 < w)
    (j : Nat) :
    checkRestartIntensity t (stateAfter k w t j) =
      ({ stateAfter k w t j with restartHistory := List.replicate (j + 1) t },
       decide (((j + 1 : Nat) : Int) ≤ (k : Int))) := by
  have h1 : (stateAfter k w t j).restartHistory = List.replicate j t := rfl
  have h2 : (stateAfter k w t j).restartWindow = w := rfl
  simp only [checkRestartIntensity, h1, h2]
  rw [firstAfterIdx_replicate w t hw j]
  simp only [Option.getD_some, List.drop_zero, ← List.replicate_succ']
  simp [stateAfter, List.length_replicate]

theorem stateAfter_lookup (k : Nat) (w t : Int) (j : Nat) :
    mapLookup (stateAfter k w t j).childMap "w" = some (wChild j) := by
  simp [stateAfter, mapLookup]

theorem fail_step (k : Nat) (w t : Int) (hw : 0 < w) (j : Nat) (hj : j < k) :
    runExitStep t ⟨wChild j, true, false⟩ (stateAfter k w t j) =
      ⟨stateAfter k w t (j + 1), [],
       [⟨"w", .ChildExited⟩, ⟨"w", .ChildRestarted⟩, ⟨"w", .ChildStarted⟩],
       none⟩ := by
  have hok : decide (((j + 1 : Nat) : Int) ≤ (k : Int)) = true :=
    decide_eq_true (by exact_mod_cast Nat.succ_le_of_lt hj)
  have hsr : shouldRestart ⟨wChild j, true, false⟩ = true := by
    simp [shouldRestart, wChild, wSpec, Permanent]
  simp only [runExitStep, handleChildExit, hsr, if_true,
    checkRestartIntensity_stateAfter k w t hw j, hok]
  rfl

theorem fail_fatal (k : Nat) (w t : Int) (hw : 0 < w) :
    runExitStep t ⟨wChild k, true, false⟩ (stateAfter k w t k) =
      ⟨{ stateAfter k w t k with
          restartHistory := List.replicate (k + 1) t,
          stopped := true,
          finalErr := some .intensityExceeded }, [],
       [⟨"w", .ChildExited⟩, ⟨"w", .SupervisorFailedIntensity⟩],
       some .intensityExceeded⟩ := by
  have hnot : decide (((k + 1 : Nat) : Int) ≤ (k : Int)) = false :=
    decide_eq_false (by exact_mod_cast Nat.not_succ_le_self k)
  have hsr : shouldRestart ⟨wChild k, true, false⟩ = true := by
    simp [shouldRestart, wChild, wSpec, Permanent]
  simp only [runExitStep, handleChildExit, hsr, if_true,
    checkRestartIntensity_stateAfter k w t hw k, hnot]
  simp [stateAfter, wChild, wSpec, exitEventType]

theorem failRun_ok (k : Nat) (w t : Int) (hw : 0 < w) :
    ∀ (n j : Nat), j + n ≤ k →
      (failRun t n (stateAfter k w t j)).1 = stateAfter k w t (j + n) := by
  intro n
  induction n with
  | zero =>
    intro j hj
    simp [failRun]
  | succ m ih =>
    intro j hj
    have hj2 : j < k := by omega
    simp only [failRun, stateAfter_lookup k w t j,
      fail_step k w t hw j hj2]
    rw [show j + (m + 1) = (j + 1) + m from by omega]
    exact ih (j + 1) (by omega)

theorem failRun_fatal (k : Nat) (w t : Int) (hw : 0 < w) :
    ∀ (n j : Nat), j + n = k →
      (failRun t (n + 1) (stateAfter k w t j)).1.finalErr =
        some .intensityExceeded ∧
      (failRun t (n + 1) (stateAfter k w t j)).1.stopped = true ∧
      (⟨"w", .SupervisorFailedIntensity⟩ : Event) ∈
        (failRun t (n + 1) (stateAfter k w t j)).2 := by
  intro n
  induction n with
  | zero =>
    intro j hj
    have hjk : j = k := by omega
    rw [hjk]
    simp only [failRun, stateAfter_lookup k w t k, fail_fatal k w t hw]
    simp
  | succ m ih =>
    intro j hj
    have hj2 : j < k := by omega
    simp only [failRun, stateAfter_lookup k w t j,
      fail_step k w t hw j hj2]
    obtain ⟨h1, h2, h3⟩ := ih (j + 1) (by omega)
    exact ⟨h1, h2, List.mem_append.mpr (Or.inr h3)⟩

/-! ### Rational truncation (the float-to-Duration conversion) -/

theorem ratTrunc_of_nonneg (q : ℚ) (h : 0 ≤ q) :
    0 ≤ ratTrunc q ∧ (ratTrunc q : ℚ) ≤ q := by
  unfold ratTrunc
  rw [if_neg (not_lt.mpr h)]
  exact ⟨Int.floor_nonneg.mpr h, Int.floor_le q⟩

theorem ratTrunc_of_neg (q : ℚ) (h : q < 0) :
    q ≤ (ratTrunc q : ℚ) ∧ ratTrunc q ≤ 0 := by
  unfold ratTrunc
  rw [if_pos h]
  refine ⟨Int.le_ceil q, ?_⟩
  exact Int.ceil_le.mpr (by exact_mod_cast h.le)

theorem ratTrunc_zero : ratTrunc 0 = 0 := by
  unfold ratTrunc
  rw [if_neg (lt_irrefl 0)]
  exact Int.floor_zero

theorem findIdxByName_lt (l : List Child) (name : String) (i : Nat)
    (h : findIdxByName l name = some i) : i < l.length := by
  induction l generalizing i with
  | nil => simp [findIdxByName] at h
  | cons c rest ih =>
    by_cases hc : c.spec.name = name
    · simp only [findIdxByName, if_pos hc, Option.some.injEq] at h
      subst h
      simp
    · simp only [findIdxByName, if_neg hc, Option.map_eq_some'] at h
      obtain ⟨j, hj, rfl⟩ := h
      have := ih j hj
      simp only [List.length_cons]
      omega

theorem idsOf_take_drop_nodup (l : List Child) (i : Nat)
    (hids : (idsOf l).Nodup) :
    ∀ c ∈ l.take i, c.id ∉ idsOf (l.drop i) := by
  intro c hc hmem
  have hsplit : (idsOf (l.take i) ++ idsOf (l.drop i)).Nodup := by
    rw [← idsOf_append, List.take_append_drop]
    exact hids
  have hdj := (List.nodup_append.mp hsplit).2.2
  exact hdj (by simp only [idsOf, List.mem_map]; exact ⟨c, hc, rfl⟩) hmem

theorem stopAll_map_take (l : List Child) (i : Nat)
    (hids : (idsOf l).Nodup) :
    (l.map (stopAll (idsOf (l.drop i)))).take i = l.take i := by
  rw [← List.map_take]
  have h2 : (l.take i).map (stopAll (idsOf (l.drop i))) = (l.take i).map id :=
    List.map_congr_left (fun a ha => by
      rw [stopAll_of_not_mem _ _ (idsOf_take_drop_nodup l i hids a ha)]
      rfl)
  rw [h2, List.map_id]

/-- Characterization of `restartRestForOne` on a state where the failed
child sits at index `i` and record identities are distinct: the prefix
is untouched, the suffix slots are replaced by fresh bumped records,
the suffix records are stopped in forward order, and the
`ChildRestarted`/`ChildStarted` trace follows sequence order. -/
theorem restForOne_char (exit : ChildExit) (s : Supervisor) (i : Nat)
    (hfind : findIdxByName s.children exit.child.spec.name = some i)
    (hids : (idsOf s.children).Nodup) :
    (restartRestForOne exit s).sup.children =
      s.children.take i ++
        freshList s.nextId ((s.children.drop i).map
          (stopAll (idsOf (s.children.drop i)))) ∧
    (restartRestForOne exit s).stops = idsOf (s.children.drop i) ∧
    (restartRestForOne exit s).events =
      restartEvents (s.children.drop i) := by
  unfold restartRestForOne
  split
  case _ heq =>
    rw [hfind] at heq
    exact absurd heq (by simp)
  case _ i2 heq =>
    rw [hfind] at heq
    injection heq with heq2
    subst heq2
    rw [foldStop_eq]
    refine ⟨?_, rfl, ?_⟩
    · show (s.children.map (stopAll (idsOf (s.children.drop i)))).take i ++
          (buildAll s.nextId
            ((s.children.map (stopAll (idsOf (s.children.drop i)))).drop i)
            (s.childMap.map
              (fun p => (p.1, stopAll (idsOf (s.children.drop i)) p.2)))).2.1
        = s.children.take i ++
            freshList s.nextId ((s.children.drop i).map
              (stopAll (idsOf (s.children.drop i))))
      rw [buildAll_children, stopAll_map_take s.children i hids,
        List.map_drop]
    · show restartEvents (buildAll s.nextId
          ((s.children.map (stopAll (idsOf (s.children.drop i)))).drop i)
          (s.childMap.map
            (fun p => (p.1, stopAll (idsOf (s.children.drop i)) p.2)))).2.1
        = restartEvents (s.children.drop i)
      rw [buildAll_children, ← List.map_drop, restartEvents_freshList,
        restartEvents_map_stopAll]

/-! ### Jitter backoff arithmetic -/

theorem JitterBackoff_factor (base : Int → Int) (f : ℚ) :
    (JitterBackoff base f).factor =
      if 1 < (if f < 0 then 0 else f) then 1 else if f < 0 then 0 else f := rfl

theorem jitterComputeDelay_eq (j : JitterPolicy) (rand : ℚ) (n : Int) :
    jitterComputeDelay j rand n =
      if j.base n + ratTrunc ((j.base n : ℚ) * j.factor * (rand * 2 - 1)) < 0
      then 0
      else j.base n + ratTrunc ((j.base n : ℚ) * j.factor * (rand * 2 - 1)) :=
  rfl

theorem jitter_delay_bounds (B : Int) (F rand : ℚ)
    (hB : 0 ≤ B) (hF0 : 0 ≤ F) (hF1 : F ≤ 1) (hr0 : 0 ≤ rand)
    (hr1 : rand < 1) :
    (B : ℚ) * (1 - F) ≤
      (((if B + ratTrunc ((B : ℚ) * F * (rand * 2 - 1)) < 0 then 0
         else B + ratTrunc ((B : ℚ) * F * (rand * 2 - 1))) : Int) : ℚ) ∧
    (((if B + ratTrunc ((B : ℚ) * F * (rand * 2 - 1)) < 0 then 0
       else B + ratTrunc ((B : ℚ) * F * (rand * 2 - 1))) : Int) : ℚ) ≤
      (B : ℚ) * (1 + F) := by
  set x := (B : ℚ) * F * (rand * 2 - 1) with hx
  have hBq : (0 : ℚ) ≤ (B : ℚ) := by exact_mod_cast hB
  have hBF : (0 : ℚ) ≤ (B : ℚ) * F := mul_nonneg hBq hF0
  have hBF1 : (B : ℚ) * F ≤ (B : ℚ) := mul_le_of_le_one_right hBq hF1
  have hru : rand * 2 - 1 ≤ 1 := by linarith
  have hrl : -1 ≤ rand * 2 - 1 := by linarith
  have hxu : x ≤ (B : ℚ) * F := by
    rw [hx]
    calc (B : ℚ) * F * (rand * 2 - 1) ≤ (B : ℚ) * F * 1 :=
          mul_le_mul_of_nonneg_left hru hBF
      _ = (B : ℚ) * F := by ring
  have hxl : -((B : ℚ) * F) ≤ x := by
    rw [hx]
    calc -((B : ℚ) * F) = (B : ℚ) * F * (-1) := by ring
      _ ≤ (B : ℚ) * F * (rand * 2 - 1) :=
          mul_le_mul_of_nonneg_left hrl hBF
  have hjl : -((B : ℚ) * F) ≤ (ratTrunc x : ℚ) := by
    rcases lt_or_le x 0 with hneg | hpos
    · linarith [(ratTrunc_of_neg x hneg).1]
    · have h0 : 0 ≤ ratTrunc x := (ratTrunc_of_nonneg x hpos).1
      have h0q : (0 : ℚ) ≤ (ratTrunc x : ℚ) := by exact_mod_cast h0
      linarith
  have hju : (ratTrunc x : ℚ) ≤ (B : ℚ) * F := by
    rcases lt_or_le x 0 with hneg | hpos
    · have h0 : ratTrunc x ≤ 0 := (ratTrunc_of_neg x hneg).2
      have h0q : (ratTrunc x : ℚ) ≤ 0 := by exact_mod_cast h0
      linarith
    · linarith [(ratTrunc_of_nonneg x hpos).2]
  have hd0 : (0 : ℚ) ≤ (B : ℚ) + (ratTrunc x : ℚ) := by linarith
  have hd0i : ¬(B + ratTrunc x < 0) := by
    rw [not_lt]
    exact_mod_cast hd0
  rw [if_neg hd0i]
  have hlo : (B : ℚ) * (1 - F) = (B : ℚ) - (B : ℚ) * F := by ring
  have hhi : (B : ℚ) * (1 + F) = (B : ℚ) + (B : ℚ) * F := by ring
  constructor
  · rw [hlo]
    push_cast
    linarith
  · rw [hhi]
    push_cast
    linarith

/-! ### Claim theorems -/

/-- C10: for every processed ChildExit whose child's RestartType is
outside the defined set {Permanent, Transient, Temporary} (RestartType
is integer-valued, so such values are constructible), the restart
decision is false — the exit is handled exactly like a Temporary
child's exit. -/
theorem shouldRestart_default_temporary (exit : ChildExit)
    (h0 : exit.child.spec.restart ≠ Permanent)
    (h1 : exit.child.spec.restart ≠ Transient)
    (h2 : exit.child.spec.restart ≠ Temporary) :
    shouldRestart exit = false ∧
    shouldRestart exit =
      shouldRestart ⟨⟨exit.child.id, ⟨exit.child.spec.name, Temporary⟩,
        exit.child.restartCount, exit.child.stopped⟩,
        exit.errPresent, exit.panicked⟩ := by
  have hmain : shouldRestart exit = false := by
    simp [shouldRestart, h0, h1, h2]
  refine ⟨hmain, ?_⟩
  rw [hmain]
  simp [shouldRestart, Permanent, Transient, Temporary]

/-- Witness for C10 at the out-of-range restart type 7. -/
theorem shouldRestart_default_temporary_witness :
    ((7 : Int) ≠ Permanent ∧ (7 : Int) ≠ Transient ∧
      (7 : Int) ≠ Temporary) ∧
    shouldRestart ⟨⟨0, ⟨"x", 7⟩, 0, false⟩, true, false⟩ = false ∧
    shouldRestart ⟨⟨0, ⟨"x", 7⟩, 0, false⟩, true, false⟩ =
      shouldRestart ⟨⟨0, ⟨"x", Temporary⟩, 0, false⟩, true, false⟩ :=
  ⟨⟨by decide, by decide, by decide⟩,
   shouldRestart_default_temporary ⟨⟨0, ⟨"x", 7⟩, 0, false⟩, true, false⟩
     (by decide) (by decide) (by decide)⟩

/-- C9: JitterBackoff clamps its factor into [0, 1] at construction;
with a non-positive factor its ComputeDelay equals the wrapped base
policy pointwise (whenever the base delay is non-negative); and for
any factor the returned delay lies in
[base·(1 − factor), base·(1 + factor)], clamped to non-negative.  The
float64 arithmetic is modelled by exact rationals, with the
rand.Float64() sample in [0, 1) passed explicitly. -/
theorem jitter_backoff_spec (base : Int → Int) (f rand : ℚ) (n : Int)
    (hb : 0 ≤ base n) (hr0 : 0 ≤ rand) (hr1 : rand < 1) :
    (0 ≤ (JitterBackoff base f).factor ∧
      (JitterBackoff base f).factor ≤ 1) ∧
    (f ≤ 0 → jitterComputeDelay (JitterBackoff base f) rand n = base n) ∧
    ((base n : ℚ) * (1 - (JitterBackoff base f).factor) ≤
        (jitterComputeDelay (JitterBackoff base f) rand n : ℚ) ∧
      (jitterComputeDelay (JitterBackoff base f) rand n : ℚ) ≤
        (base n : ℚ) * (1 + (JitterBackoff base f).factor)) := by
  have hcl : 0 ≤ (JitterBackoff base f).factor ∧
      (JitterBackoff base f).factor ≤ 1 := by
    rw [JitterBackoff_factor]
    constructor <;> split_ifs <;> linarith
  refine ⟨hcl, ?_, ?_⟩
  · intro hf
    have hfz : (JitterBackoff base f).factor = 0 := by
      rw [JitterBackoff_factor]
      split_ifs <;> linarith
    rw [jitterComputeDelay_eq, hfz]
    simp only [mul_zero, zero_mul, ratTrunc_zero, add_zero]
    have hbb : (JitterBackoff base f).base n = base n := rfl
    rw [hbb, if_neg (not_lt.mpr hb)]
  · have h := jitter_delay_bounds (base n) (JitterBackoff base f).factor rand
      hb hcl.1 hcl.2 hr0 hr1
    rw [jitterComputeDelay_eq]
    exact h

/-- Witness for C9 at a constant 1000ns base, factor 1/5, sample 1/2. -/
theorem jitter_backoff_spec_witness :
    (0 ≤ constantDelay 1000 0 ∧ (0 : ℚ) ≤ 1/2 ∧ (1/2 : ℚ) < 1) ∧
    ((0 ≤ (JitterBackoff (constantDelay 1000) (1/5)).factor ∧
       (JitterBackoff (constantDelay 1000) (1/5)).factor ≤ 1) ∧
     ((1/5 : ℚ) ≤ 0 →
       jitterComputeDelay (JitterBackoff (constantDelay 1000) (1/5))
         (1/2) 0 = constantDelay 1000 0) ∧
     ((constantDelay 1000 0 : ℚ) *
         (1 - (JitterBackoff (constantDelay 1000) (1/5)).factor) ≤
        (jitterComputeDelay (JitterBackoff (constantDelay 1000) (1/5))
          (1/2) 0 : ℚ) ∧
      (jitterComputeDelay (JitterBackoff (constantDelay 1000) (1/5))
          (1/2) 0 : ℚ) ≤
        (constantDelay 1000 0 : ℚ) *
          (1 + (JitterBackoff (constantDelay 1000) (1/5)).factor))) :=
  ⟨⟨by norm_num [constantDelay], by norm_num, by norm_num⟩,
   jitter_backoff_spec (constantDelay 1000) (1/5) (1/2) 0
     (by norm_num [constantDelay]) (by norm_num) (by norm_num)⟩

/-- C7: after each invocation of the intensity check on a supervisor
with positive restartWindow (history chronological and in the past),
restartHistory holds only timestamps in (now − restartWindow, now]. -/
theorem restart_history_window_bound (now : Int) (s : Supervisor)
    (hw : 0 < s.restartWindow)
    (hsort : List.Pairwise (· ≤ ·) s.restartHistory)
    (hle : ∀ x ∈ s.restartHistory, x ≤ now) :
    ∀ x ∈ (checkRestartIntensity now s).1.restartHistory,
      now - s.restartWindow < x ∧ x ≤ now := by
  intro x hx
  obtain ⟨heq, _⟩ := checkRestartIntensity_eq now s hw hsort hle
  rw [heq] at hx
  have hx2 : x ∈ (s.restartHistory ++ [now]).filter
      (fun y => decide (now - s.restartWindow < y)) := hx
  have hmem := List.mem_filter.mp hx2
  constructor
  · exact of_decide_eq_true hmem.2
  · rcases List.mem_append.mp hmem.1 with h1 | h2
    · exact hle x h1
    · simp only [List.mem_singleton] at h2
      subst h2
      exact le_refl x

/-- Witness for C7: history [3, 5] at now = 10 with window 60; the
retained entry 3 is strictly inside the window and at most now. -/
theorem restart_history_window_bound_witness :
    (0 < (⟨OneForOne, 10, 60, [], [], [3, 5], false, none,
        0⟩ : Supervisor).restartWindow ∧
     List.Pairwise (· ≤ ·) [(3 : Int), 5] ∧
     (∀ x ∈ [(3 : Int), 5], x ≤ 10)) ∧
    ((10 : Int) - 60 < 3 ∧ (3 : Int) ≤ 10) :=
  ⟨⟨by decide, by decide, by decide⟩,
   restart_history_window_bound 10
     ⟨OneForOne, 10, 60, [], [], [3, 5], false, none, 0⟩
     (by decide) (by decide) (by decide) 3 (by decide)⟩

/-- C4: the intensity check appends "now" to restartHistory, prunes
entries at or before now − restartWindow, and fails exactly when the
retained count exceeds maxRestarts; in the boundary scenario with
maxRestarts = k and a Permanent child failing immediately at every
run, the first k exits are survived and the (k+1)-th is fatal:
SupervisorFailedIntensity is emitted and ErrIntensityExceeded is
recorded as the error `Wait`/`Stop` return. -/
theorem intensity_check_spec (now : Int) (s : Supervisor) (k : Nat)
    (w t : Int)
    (hw : 0 < s.restartWindow)
    (hsort : List.Pairwise (· ≤ ·) s.restartHistory)
    (hle : ∀ x ∈ s.restartHistory, x ≤ now)
    (hw2 : 0 < w) :
    ((checkRestartIntensity now s).1 =
      { s with restartHistory :=
          ((s.restartHistory ++ [now]).filter
            (fun x => decide (now - s.restartWindow < x))) } ∧
     ((checkRestartIntensity now s).2 = true ↔
       (((s.restartHistory ++ [now]).filter
           (fun x => decide (now - s.restartWindow < x))).length : Int)
         ≤ s.maxRestarts)) ∧
    (∀ n ≤ k, (failRun t n (stateAfter k w t 0)).1.finalErr = none) ∧
    ((failRun t (k + 1) (stateAfter k w t 0)).1.finalErr =
        some .intensityExceeded ∧
     (failRun t (k + 1) (stateAfter k w t 0)).1.stopped = true ∧
     waitResult (failRun t (k + 1) (stateAfter k w t 0)).1 =
        some .intensityExceeded ∧
     (⟨"w", .SupervisorFailedIntensity⟩ : Event) ∈
       (failRun t (k + 1) (stateAfter k w t 0)).2) := by
  refine ⟨checkRestartIntensity_eq now s hw hsort hle, ?_, ?_⟩
  · intro n hn
    rw [failRun_ok k w t hw2 n 0 (by omega)]
    rfl
  · obtain ⟨h1, h2, h3⟩ := failRun_fatal k w t hw2 k 0 (by omega)
    exact ⟨h1, h2, h1, h3⟩

/-- Witness for C4 at k = 1, window 60, all failures at time 0. -/
theorem intensity_check_spec_witness :
    (failRun 0 1 (stateAfter 1 60 0 0)).1.finalErr = none ∧
    (failRun 0 2 (stateAfter 1 60 0 0)).1.finalErr =
      some .intensityExceeded ∧
    (failRun 0 2 (stateAfter 1 60 0 0)).1.stopped = true ∧
    (⟨"w", .SupervisorFailedIntensity⟩ : Event) ∈
      (failRun 0 2 (stateAfter 1 60 0 0)).2 := by
  have h := intensity_check_spec 10 (stateAfter 1 60 0 0) 1 60 0
    (by decide) (by decide) (by decide) (by decide)
  exact ⟨h.2.1 1 (by decide), h.2.2.1, h.2.2.2.1, h.2.2.2.2.2⟩

theorem executeStrategy_restForOne (exit : ChildExit) (s : Supervisor)
    (h : s.strategy = RestForOne) :
    executeStrategy exit s = restartRestForOne exit s := by
  unfold executeStrategy
  rw [h]
  norm_num [OneForOne, OneForAll, RestForOne, SimpleOneForOne]

theorem restartRestForOne_none (exit : ChildExit) (s : Supervisor)
    (h : findIdxByName s.children exit.child.spec.name = none) :
    restartRestForOne exit s = ⟨s, [], [], none⟩ := by
  unfold restartRestForOne
  rw [h]

/-- C1 counterexample: under OneForOne, the pending exit of the
already-removed Permanent child "a" is not ignored — an intensity
entry is appended, a ChildRestarted event is published beyond the
ChildExited, and a fresh record for "a" is installed in the Name index
while the (empty) children sequence is left without it. -/
theorem removed_exit_not_ignored_counterexample :
    supEmpty.childMap = [] ∧
    supEmpty.restartHistory = [] ∧
    (runExitStep 100 exitA supEmpty).sup.restartHistory = [100] ∧
    (⟨"a", .ChildRestarted⟩ : Event) ∈ (runExitStep 100 exitA supEmpty).events ∧
    mapLookup (runExitStep 100 exitA supEmpty).sup.childMap "a" ≠ none ∧
    (runExitStep 100 exitA supEmpty).sup.children = [] := by decide

/-- C1 (amended): only under the RestForOne strategy is the exit of a
child whose name is no longer in the children sequence ignored by the
strategy engine: provided the exit warrants a restart and the
intensity check passes, processing it leaves the children sequence,
the Name index, the stopped flag and finalErr unchanged, stops
nothing, publishes no event beyond the already-emitted
ChildExited/ChildPanicked, and returns no error.  (The restart
decision is still evaluated and the intensity entry appended — only
the history field changes.)  Under OneForOne/SimpleOneForOne the exit
is not ignored (see the counterexample); under OneForAll all current
children are restarted. -/
theorem restForOne_ignores_unregistered_exit (now : Int) (exit : ChildExit)
    (s : Supervisor)
    (hstrat : s.strategy = RestForOne)
    (hnone : findIdxByName s.children exit.child.spec.name = none)
    (hsr : shouldRestart exit = true)
    (hok : (checkRestartIntensity now s).2 = true) :
    (runExitStep now exit s).sup.children = s.children ∧
    (runExitStep now exit s).sup.childMap = s.childMap ∧
    (runExitStep now exit s).sup.stopped = s.stopped ∧
    (runExitStep now exit s).sup.finalErr = s.finalErr ∧
    (runExitStep now exit s).stops = [] ∧
    (runExitStep now exit s).events =
      [⟨exit.child.spec.name, exitEventType exit⟩] ∧
    (runExitStep now exit s).err = none := by
  have hstep : handleChildExit now exit s =
      ⟨(checkRestartIntensity now s).1, [],
       [⟨exit.child.spec.name, exitEventType exit⟩], none⟩ := by
    unfold handleChildExit
    simp only [hsr, hok, if_true]
    rw [executeStrategy_restForOne exit (checkRestartIntensity now s).1
      (by exact hstrat)]
    rw [restartRestForOne_none exit (checkRestartIntensity now s).1
      (by exact hnone)]
  unfold runExitStep
  rw [hstep]
  exact ⟨rfl, rfl, rfl, rfl, rfl, rfl, rfl⟩

/-- Witness for C1 (amended) at the RestForOne fixture whose child "a"
was removed before its exit arrived. -/
theorem restForOne_ignores_unregistered_exit_witness :
    (supEmptyR.strategy = RestForOne ∧
     findIdxByName supEmptyR.children "a" = none ∧
     shouldRestart exitA = true ∧
     (checkRestartIntensity 100 supEmptyR).2 = true) ∧
    ((runExitStep 100 exitA supEmptyR).sup.children = supEmptyR.children ∧
     (runExitStep 100 exitA supEmptyR).sup.childMap = supEmptyR.childMap ∧
     (runExitStep 100 exitA supEmptyR).sup.stopped = supEmptyR.stopped ∧
     (runExitStep 100 exitA supEmptyR).sup.finalErr = supEmptyR.finalErr ∧
     (runExitStep 100 exitA supEmptyR).stops = [] ∧
     (runExitStep 100 exitA supEmptyR).events =
       [⟨"a", .ChildExited⟩] ∧
     (runExitStep 100 exitA supEmptyR).err = none) :=
  ⟨⟨by decide, by decide, by decide, by decide⟩,
   restForOne_ignores_unregistered_exit 100 exitA supEmptyR
     (by decide) (by decide) (by decide) (by decide)⟩

theorem restartAll_children (s : Supervisor) :
    (restartAll s).sup.children =
      freshList s.nextId (s.children.map (stopAll (idsOf s.children))) := by
  unfold restartAll
  rw [foldStop_eq]
  show (buildAll s.nextId (s.children.map (stopAll (idsOf s.children)))
    (s.childMap.map (fun p => (p.1, stopAll (idsOf s.children) p.2)))).2.1 = _
  rw [buildAll_children]

/-- C2 counterexample: a manual RestartChild of the thrice-restarted
record "a" installs a replacement whose restartCount is 0, not 3 + 1:
the count is reset, not inherited. -/
theorem manual_restart_resets_count :
    (mapLookup supA3.childMap "a").map (fun c => c.restartCount) =
      some 3 ∧
    (mapLookup (doRestartChild "a" supA3).sup.childMap "a").map
      (fun c => c.restartCount) = some 0 ∧
    some (0 : Int) ≠ some ((3 : Int) + 1) := by decide

/-- C2 (amended): every strategy-driven restart (OneForOne and
SimpleOneForOne via restartOne, OneForAll via restartAll, RestForOne)
installs a replacement whose restartCount is the old record's count
plus one; a manual RestartChild instead installs a replacement with
restartCount 0, so the count is not non-decreasing across manual
restarts. -/
theorem restart_count_spec (exit : ChildExit) (s : Supervisor)
    (name : String) (ch : Child) (i : Nat)
    (hlk : mapLookup s.childMap name = some ch)
    (hfind : findIdxByName s.children exit.child.spec.name = some i)
    (hids : (idsOf s.children).Nodup) :
    (mapLookup (restartOne exit s).sup.childMap exit.child.spec.name =
      some ⟨s.nextId, exit.child.spec, exit.child.restartCount + 1,
        false⟩) ∧
    (∀ j : Nat,
      (restartAll s).sup.children[j]?.map (fun c : Child => c.restartCount) =
      s.children[j]?.map (fun c : Child => c.restartCount + 1)) ∧
    (∀ j : Nat, i ≤ j →
      (restartRestForOne exit s).sup.children[j]?.map
        (fun c : Child => c.restartCount) =
      s.children[j]?.map (fun c : Child => c.restartCount + 1)) ∧
    ((mapLookup (doRestartChild name s).sup.childMap name).map
      (fun c => c.restartCount) = some 0) := by
  refine ⟨?_, ?_, ?_, ?_⟩
  · show mapLookup (mapInsert s.childMap exit.child.spec.name
      ⟨s.nextId, exit.child.spec, exit.child.restartCount + 1, false⟩)
      exit.child.spec.name = _
    rw [mapLookup_insert_self]
  · intro j
    rw [restartAll_children, freshList_getElem, List.getElem?_map]
    cases hsj : s.children[j]? with
    | none => simp
    | some c => simp [stopAll_restartCount]
  · intro j hj
    obtain ⟨hch, _, _⟩ := restForOne_char exit s i hfind hids
    have hilen : i < s.children.length := findIdxByName_lt _ _ _ hfind
    have htklen : (s.children.take i).length = i := by
      rw [List.length_take]
      omega
    rw [hch, List.getElem?_append_right (by omega : (s.children.take i).length ≤ j)]
    rw [htklen, freshList_getElem, List.getElem?_map, List.getElem?_drop]
    rw [show i + (j - i) = j from by omega]
    cases hsj : s.children[j]? with
    | none => simp
    | some c => simp [stopAll_restartCount]
  · unfold doRestartChild
    split
    case _ heq =>
      rw [hlk] at heq
      exact absurd heq (by simp)
    case _ ch2 heq =>
      show (mapLookup (mapInsert ((supStop s ch2.id).childMap) name
        (newChild (supStop s ch2.id).nextId ch2.spec)) name).map
          (fun c => c.restartCount) = some 0
      rw [mapLookup_insert_self]
      rfl

/-- Witness for C2 (amended) on the three-child fixture: restartOne on
b's exit bumps the count, restartAll bumps slot 0, RestForOne bumps
slot 1, and a manual restart of "a" resets to 0. -/
theorem restart_count_spec_witness :
    (mapLookup (restartOne exitB supABC).sup.childMap "b" =
      some ⟨3, ⟨"b", Permanent⟩, 1, false⟩) ∧
    (restartAll supABC).sup.children[0]?.map (fun c => c.restartCount) =
      supABC.children[0]?.map (fun c => c.restartCount + 1) ∧
    (restartRestForOne exitB supABC).sup.children[1]?.map
      (fun c => c.restartCount) =
      supABC.children[1]?.map (fun c => c.restartCount + 1) ∧
    (mapLookup (doRestartChild "a" supABC).sup.childMap "a").map
      (fun c => c.restartCount) = some 0 := by
  have h := restart_count_spec exitB supABC "a" childA 1
    (by decide) (by decide) (by decide)
  exact ⟨h.1, h.2.1 0, h.2.2.1 1 (by decide), h.2.2.2⟩

/-- C3 counterexample: with the stopped flag set and child "a" still
registered, RemoveChild succeeds (returns nil and removes the child)
instead of returning ErrSupervisorStopped, and RestartChild succeeds
as well — neither consults the flag. -/
theorem stopped_remove_not_rejected :
    supStopped.stopped = true ∧
    (doRemoveChild "a" supStopped).err = none ∧
    (doRemoveChild "a" supStopped).err ≠ some .supervisorStopped ∧
    (doRemoveChild "a" supStopped).sup.children = [] ∧
    (doRestartChild "a" supStopped).err = none := by decide

/-- C3 (amended): once the stopped flag is set — which happens only
when exit processing returns a fatal error, recorded together with
finalErr — Start and AddChild return ErrSupervisorStopped and leave
the state unchanged; RemoveChild and RestartChild do not consult the
flag and proceed normally on a registered child. -/
theorem stopped_flag_spec (s : Supervisor) (spec : ChildSpec)
    (name : String) (ch : Child)
    (hstop : s.stopped = true)
    (hlk : mapLookup s.childMap name = some ch) :
    startSup s = ([], some .supervisorStopped) ∧
    (doAddChild spec s).err = some .supervisorStopped ∧
    (doAddChild spec s).sup = s ∧
    (doRemoveChild name s).err = none ∧
    (doRestartChild name s).err = none ∧
    (∀ (now : Int) (exit : ChildExit) (s2 : Supervisor) (e : GoError),
      (handleChildExit now exit s2).err = some e →
      (runExitStep now exit s2).sup.stopped = true ∧
      (runExitStep now exit s2).sup.finalErr = some e) := by
  refine ⟨?_, ?_, ?_, ?_, ?_, ?_⟩
  · simp [startSup, hstop]
  · simp [doAddChild, hstop]
  · simp [doAddChild, hstop]
  · unfold doRemoveChild
    split
    case _ heq =>
      rw [hlk] at heq
      exact absurd heq (by simp)
    case _ ch2 heq => rfl
  · unfold doRestartChild
    split
    case _ heq =>
      rw [hlk] at heq
      exact absurd heq (by simp)
    case _ ch2 heq => rfl
  · intro now exit s2 e he
    simp [runExitStep, he]

/-- Witness for C3 (amended) on the stopped fixture; the fatal-error
clause is exercised by an exit on a supervisor with maxRestarts 0. -/
theorem stopped_flag_spec_witness :
    (supStopped.stopped = true ∧
     mapLookup supStopped.childMap "a" = some childA) ∧
    (startSup supStopped = ([], some .supervisorStopped) ∧
     (doAddChild ⟨"b", Permanent⟩ supStopped).err =
       some .supervisorStopped ∧
     (doAddChild ⟨"b", Permanent⟩ supStopped).sup = supStopped ∧
     (doRemoveChild "a" supStopped).err = none ∧
     (doRestartChild "a" supStopped).err = none) ∧
    ((runExitStep 100 exitA supZero).sup.stopped = true ∧
     (runExitStep 100 exitA supZero).sup.finalErr =
       some .intensityExceeded) := by
  have h := stopped_flag_spec supStopped ⟨"b", Permanent⟩ "a" childA
    (by decide) (by decide)
  exact ⟨⟨by decide, by decide⟩,
    ⟨h.1, h.2.1, h.2.2.1, h.2.2.2.1, h.2.2.2.2.1⟩,
    h.2.2.2.2.2 100 exitA supZero .intensityExceeded (by decide)⟩

/-- C8: under RestForOne, when the failed child sits at positional
index i (record identities distinct), the records at positions [0, i)
are left untouched — same record values at the same positions, and
their stop() is never called — while every slot in [i, end) is
replaced in forward order by a fresh record with the same spec,
restartCount incremented and stopped = false; the old records at
[i, end) are stopped in forward order, and the
ChildRestarted/ChildStarted events are emitted in sequence order. -/
theorem restForOne_frame_spec (exit : ChildExit) (s : Supervisor) (i : Nat)
    (hfind : findIdxByName s.children exit.child.spec.name = some i)
    (hids : (idsOf s.children).Nodup) :
    (∀ j : Nat, j < i →
      (restartRestForOne exit s).sup.children[j]? = s.children[j]?) ∧
    (∀ c ∈ s.children.take i, c.id ∉ (restartRestForOne exit s).stops) ∧
    (restartRestForOne exit s).sup.children.length = s.children.length ∧
    (∀ j : Nat, i ≤ j →
      ((restartRestForOne exit s).sup.children[j]?.map
          (fun c : Child => c.spec) =
        s.children[j]?.map (fun c : Child => c.spec) ∧
       (restartRestForOne exit s).sup.children[j]?.map
          (fun c : Child => c.restartCount) =
        s.children[j]?.map (fun c : Child => c.restartCount + 1) ∧
       (restartRestForOne exit s).sup.children[j]?.map
          (fun c : Child => c.stopped) =
        s.children[j]?.map (fun _ : Child => false))) ∧
    (restartRestForOne exit s).stops = idsOf (s.children.drop i) ∧
    (restartRestForOne exit s).events =
      restartEvents (s.children.drop i) := by
  obtain ⟨hch, hst, hev⟩ := restForOne_char exit s i hfind hids
  have hilen : i < s.children.length := findIdxByName_lt _ _ _ hfind
  have htklen : (s.children.take i).length = i := by
    rw [List.length_take]
    omega
  refine ⟨?_, ?_, ?_, ?_, hst, hev⟩
  · intro j hj
    rw [hch, List.getElem?_append_left (by omega : j < (s.children.take i).length)]
    exact List.getElem?_take_of_lt hj
  · intro c hc
    rw [hst]
    exact idsOf_take_drop_nodup s.children i hids c hc
  · rw [hch, List.length_append, htklen, freshList_length,
      List.length_map, List.length_drop]
    omega
  · intro j hj
    rw [hch,
      List.getElem?_append_right (by omega : (s.children.take i).length ≤ j),
      htklen, freshList_getElem, List.getElem?_map, List.getElem?_drop,
      show i + (j - i) = j from by omega]
    cases hsj : s.children[j]? with
    | none => simp
    | some c => simp [stopAll_spec, stopAll_restartCount]

/-- Witness for C8 on the three-child fixture with b (index 1)
failing: slot a is untouched and not stopped, slots b and c are
replaced with bumped counts, and the trace covers b then c. -/
theorem restForOne_frame_spec_witness :
    (findIdxByName supABC.children "b" = some 1 ∧
     (idsOf supABC.children).Nodup) ∧
    ((restartRestForOne exitB supABC).sup.children[0]? =
      supABC.children[0]? ∧
     (restartRestForOne exitB supABC).sup.children.length =
      supABC.children.length ∧
     (restartRestForOne exitB supABC).sup.children[2]?.map
        (fun c : Child => c.restartCount) =
      supABC.children[2]?.map (fun c : Child => c.restartCount + 1) ∧
     (restartRestForOne exitB supABC).stops =
      idsOf (supABC.children.drop 1) ∧
     (restartRestForOne exitB supABC).events =
      restartEvents (supABC.children.drop 1)) := by
  have h := restForOne_frame_spec exitB supABC 1 (by decide) (by decide)
  exact ⟨⟨by decide, by decide⟩,
    h.1 0 (by decide), h.2.2.1, (h.2.2.2.1 2 (by decide)).2.1,
    h.2.2.2.2.1, h.2.2.2.2.2⟩

/-- C5 counterexample: starting from the well-formed state whose child
"a" was removed, processing the removed child's exit through
restartOne installs a record for "a" in the Name index but not in the
children sequence — the sequence and the index no longer hold the
same records. -/
theorem restartOne_unregistered_breaks_sync :
    WF supEmpty ∧
    sameRecords supEmpty ∧
    ¬ sameRecords (restartOne exitA supEmpty).sup ∧
    (restartOne exitA supEmpty).sup.children = [] ∧
    (restartOne exitA supEmpty).sup.childMap ≠ [] := by decide

/-- C5 (amended): on a well-formed state (sequence and index in sync,
names unique, record identities distinct and below the allocator),
doAddChild, doRemoveChild, doRestartChild, restartAll and
restartRestForOne all preserve well-formedness and leave the sequence
and the Name index holding the same records under the same names;
restartOne preserves this too, but only when the exited child's name
is still registered in the sequence — otherwise it inserts the
replacement into the index alone (see the counterexample). -/
theorem children_map_sync_preserved (s : Supervisor) (spec : ChildSpec)
    (name : String) (exit : ChildExit) (h : WF s) :
    (WF (doAddChild spec s).sup ∧ sameRecords (doAddChild spec s).sup) ∧
    (WF (doRemoveChild name s).sup ∧
      sameRecords (doRemoveChild name s).sup) ∧
    (WF (doRestartChild name s).sup ∧
      sameRecords (doRestartChild name s).sup) ∧
    (WF (restartAll s).sup ∧ sameRecords (restartAll s).sup) ∧
    (WF (restartRestForOne exit s).sup ∧
      sameRecords (restartRestForOne exit s).sup) ∧
    (exit.child.spec.name ∈ namesOf s.children →
      WF (restartOne exit s).sup ∧ sameRecords (restartOne exit s).sup) := by
  refine ⟨⟨WF_doAddChild spec s h, syncd_sameRecords _ (WF_doAddChild spec s h).1⟩,
    ⟨WF_doRemoveChild name s h, syncd_sameRecords _ (WF_doRemoveChild name s h).1⟩,
    ⟨WF_doRestartChild name s h, syncd_sameRecords _ (WF_doRestartChild name s h).1⟩,
    ⟨WF_restartAll s h, syncd_sameRecords _ (WF_restartAll s h).1⟩,
    ⟨WF_restartRestForOne exit s h,
      syncd_sameRecords _ (WF_restartRestForOne exit s h).1⟩,
    fun hin => ⟨WF_restartOne exit s hin h,
      syncd_sameRecords _ (WF_restartOne exit s hin h).1⟩⟩

/-- Witness for C5 (amended) on the well-formed three-child fixture. -/
theorem children_map_sync_preserved_witness :
    WF supABC ∧
    (WF (doAddChild ⟨"d", Permanent⟩ supABC).sup ∧
      sameRecords (doAddChild ⟨"d", Permanent⟩ supABC).sup) ∧
    (WF (doRemoveChild "a" supABC).sup ∧
      sameRecords (doRemoveChild "a" supABC).sup) ∧
    (WF (restartRestForOne exitB supABC).sup ∧
      sameRecords (restartRestForOne exitB supABC).sup) ∧
    (WF (restartOne exitB supABC).sup ∧
      sameRecords (restartOne exitB supABC).sup) := by
  have h := children_map_sync_preserved supABC ⟨"d", Permanent⟩ "a" exitB
    (by decide)
  exact ⟨by decide, h.1, h.2.1, h.2.2.2.2.1, h.2.2.2.2.2 (by decide)⟩

end Goverseer
